import Mathlib

/-!
Verification of the WinJS control-API extraction pipeline.

The repository contains two generations of the same tool:
* `src/main.js` — the full pipeline: namespace filtering, property
  classification, two-strategy enum resolution, event-name normalization
  with batched validation, and a deterministic sorted serializer.
* `src/unnamed/part_000` — an earlier variant whose property output is a
  plain list of names and which additionally excludes properties whose
  lowercased name ends in "element" (`keepProperty`); embedded below in
  namespace `V0`.

JavaScript strings are modelled as Lean `String`s (lists of characters);
string primitives used by the source (`substring`-based startsWith,
`substr`-based endsWith, `split(".")`, `toLowerCase`, character-wise
comparison in `Array.prototype.sort`) are re-implemented character-wise
below, which coincides with the JS code-unit semantics on the ASCII data
the tool manipulates.
-/

namespace WinJS

/-- Character-wise lexicographic comparison of character lists, mirroring
the code-unit comparison used by JavaScript's default `Array.prototype.sort`
comparator and by relational operators on strings. -/
def charListLe : List Char → List Char → Bool
  | [], _ => true
  | _ :: _, [] => false
  | a :: as, b :: bs =>
    if a < b then true
    else if b < a then false
    else charListLe as bs

/-- Strict variant of `charListLe`. -/
def charListLt : List Char → List Char → Bool
  | [], [] => false
  | [], _ :: _ => true
  | _ :: _, [] => false
  | a :: as, b :: bs =>
    if a < b then true
    else if b < a then false
    else charListLt as bs

/-- JS `a <= b` on strings (code-unit lexicographic order). -/
def strLe (a b : String) : Bool := charListLe a.data b.data

/-- JS `a < b` on strings (code-unit lexicographic order). -/
def strLt (a b : String) : Bool := charListLt a.data b.data

/-- JS `startsWith` helper from the source:
`s.substring(0, prefix.length) === prefix`. -/
def startsWithS (s pre : String) : Bool := pre.data.isPrefixOf s.data

/-- JS `endsWith` helper from `src/unnamed/part_000`:
`s.length >= suffix.length && s.substr(-suffix.length) === suffix`. -/
def endsWithS (s suf : String) : Bool := suf.data.isSuffixOf s.data

/-- JS `String.prototype.toLowerCase` (character-wise; ASCII-faithful). -/
def toLowerS (s : String) : String := String.mk (s.data.map Char.toLower)

/-- JS `String.prototype.split(".")` on character lists. -/
def splitDotAux : List Char → List Char → List (List Char)
  | [], acc => [acc.reverse]
  | c :: cs, acc =>
    if c = '.' then acc.reverse :: splitDotAux cs []
    else splitDotAux cs (c :: acc)

/-- JS `s.split(".")`. -/
def splitDot (s : String) : List String :=
  (splitDotAux s.data []).map String.mk

/-- `parts[parts.length - 1]` after `split(".")` — the last dot-separated
segment of a name. -/
def lastSeg (s : String) : String := (splitDot s).getLastD ""

/-- JS `propName[0].toUpperCase() + propName.substring(1)`; the empty-string
case (where JS would crash on `undefined[0]`) is guarded at the call site. -/
def capFirst (s : String) : String :=
  match s.data with
  | [] => ""
  | c :: cs => String.mk (c.toUpper :: cs)

theorem charListLe_cons (x y : Char) (xs ys : List Char) :
    charListLe (x :: xs) (y :: ys)
      = if x < y then true else if y < x then false else charListLe xs ys := rfl

theorem charListLt_cons (x y : Char) (xs ys : List Char) :
    charListLt (x :: xs) (y :: ys)
      = if x < y then true else if y < x then false else charListLt xs ys := rfl

theorem charListLe_total (a b : List Char) :
    charListLe a b = true ∨ charListLe b a = true := by
  induction a generalizing b with
  | nil => left; rfl
  | cons x xs ih =>
    cases b with
    | nil => right; rfl
    | cons y ys =>
      rcases lt_trichotomy x y with hxy | hxy | hxy
      · left; rw [charListLe_cons, if_pos hxy]
      · subst hxy
        rcases ih ys with h | h
        · left; rw [charListLe_cons, if_neg (lt_irrefl x), if_neg (lt_irrefl x)]; exact h
        · right; rw [charListLe_cons, if_neg (lt_irrefl x), if_neg (lt_irrefl x)]; exact h
      · right; rw [charListLe_cons, if_pos hxy]

theorem charListLe_trans {a b c : List Char}
    (hab : charListLe a b = true) (hbc : charListLe b c = true) :
    charListLe a c = true := by
  induction a generalizing b c with
  | nil => rfl
  | cons x xs ih =>
    cases b with
    | nil => exact absurd hab (by simp [charListLe])
    | cons y ys =>
      cases c with
      | nil => exact absurd hbc (by simp [charListLe])
      | cons z zs =>
        rw [charListLe_cons] at hab hbc ⊢
        rcases lt_trichotomy x y with hxy | hxy | hxy
        · rcases lt_trichotomy y z with hyz | hyz | hyz
          · rw [if_pos (lt_trans hxy hyz)]
          · subst hyz; rw [if_pos hxy]
          · rw [if_neg (asymm hyz), if_pos hyz] at hbc; exact absurd hbc (by simp)
        · subst hxy
          rcases lt_trichotomy x z with hyz | hyz | hyz
          · rw [if_pos hyz]
          · subst hyz
            rw [if_neg (lt_irrefl x), if_neg (lt_irrefl x)] at hab hbc ⊢
            exact ih hab hbc
          · rw [if_neg (asymm hyz), if_pos hyz] at hbc; exact absurd hbc (by simp)
        · rw [if_neg (asymm hxy), if_pos hxy] at hab; exact absurd hab (by simp)

theorem charListLe_antisymm {a b : List Char}
    (hab : charListLe a b = true) (hba : charListLe b a = true) : a = b := by
  induction a generalizing b with
  | nil =>
    cases b with
    | nil => rfl
    | cons y ys => exact absurd hba (by simp [charListLe])
  | cons x xs ih =>
    cases b with
    | nil => exact absurd hab (by simp [charListLe])
    | cons y ys =>
      rcases lt_trichotomy x y with hxy | hxy | hxy
      · rw [charListLe_cons, if_neg (asymm hxy), if_pos hxy] at hba
        exact absurd hba (by simp)
      · subst hxy
        rw [charListLe_cons, if_neg (lt_irrefl x), if_neg (lt_irrefl x)] at hab hba
        rw [ih hab hba]
      · rw [charListLe_cons, if_neg (asymm hxy), if_pos hxy] at hab
        exact absurd hab (by simp)

theorem charListLt_asymm {a b : List Char}
    (hab : charListLt a b = true) : charListLt b a = false := by
  induction a generalizing b with
  | nil =>
    cases b with
    | nil => exact absurd hab (by simp [charListLt])
    | cons y ys => rfl
  | cons x xs ih =>
    cases b with
    | nil => exact absurd hab (by simp [charListLt])
    | cons y ys =>
      rcases lt_trichotomy x y with hxy | hxy | hxy
      · rw [charListLt_cons, if_neg (asymm hxy), if_pos hxy]
      · subst hxy
        rw [charListLt_cons, if_neg (lt_irrefl x), if_neg (lt_irrefl x)] at hab ⊢
        exact ih hab
      · rw [charListLt_cons, if_neg (asymm hxy), if_pos hxy] at hab
        exact absurd hab (by simp)

theorem charListLt_of_le_of_ne {a b : List Char}
    (hle : charListLe a b = true) (hne : a ≠ b) : charListLt a b = true := by
  induction a generalizing b with
  | nil =>
    cases b with
    | nil => exact absurd rfl hne
    | cons y ys => rfl
  | cons x xs ih =>
    cases b with
    | nil => exact absurd hle (by simp [charListLe])
    | cons y ys =>
      rcases lt_trichotomy x y with hxy | hxy | hxy
      · rw [charListLt_cons, if_pos hxy]
      · subst hxy
        rw [charListLe_cons, if_neg (lt_irrefl x), if_neg (lt_irrefl x)] at hle
        rw [charListLt_cons, if_neg (lt_irrefl x), if_neg (lt_irrefl x)]
        exact ih hle (fun h => hne (by rw [h]))
      · rw [charListLe_cons, if_neg (asymm hxy), if_pos hxy] at hle
        exact absurd hle (by simp)

theorem string_eq_of_data_eq {a b : String} (h : a.data = b.data) : a = b := by
  cases a; cases b; exact congrArg String.mk h

theorem strLe_total (a b : String) : strLe a b = true ∨ strLe b a = true :=
  charListLe_total a.data b.data

theorem strLe_trans {a b c : String}
    (hab : strLe a b = true) (hbc : strLe b c = true) : strLe a c = true :=
  charListLe_trans hab hbc

theorem strLe_antisymm {a b : String}
    (hab : strLe a b = true) (hba : strLe b a = true) : a = b :=
  string_eq_of_data_eq (charListLe_antisymm hab hba)

theorem strLt_asymm {a b : String}
    (hab : strLt a b = true) : strLt b a = false :=
  charListLt_asymm hab

theorem strLt_of_le_of_ne {a b : String}
    (hle : strLe a b = true) (hne : a ≠ b) : strLt a b = true :=
  charListLt_of_le_of_ne hle (fun h => hne (string_eq_of_data_eq h))

theorem charListLe_of_charListLt {a b : List Char}
    (h : charListLt a b = true) : charListLe a b = true := by
  induction a generalizing b with
  | nil => rfl
  | cons x xs ih =>
    cases b with
    | nil => exact absurd h (by simp [charListLt])
    | cons y ys =>
      rw [charListLt_cons] at h
      rw [charListLe_cons]
      by_cases hxy : x < y
      · rw [if_pos hxy]
      · by_cases hyx : y < x
        · rw [if_neg hxy, if_pos hyx] at h; exact absurd h (by simp)
        · rw [if_neg hxy, if_neg hyx] at h ⊢
          exact ih h

theorem strLe_of_strLt {a b : String} (h : strLt a b = true) : strLe a b = true :=
  charListLe_of_charListLt h

/-! ### Stable sort by string key

`Array.prototype.sort()` with no comparator converts elements to strings
and orders them by code units; since ES2019 the sort is stable. A stable
insertion sort by a string-valued key models it exactly. -/

/-- Insert `a` into `l` in front of the first element whose key is not
`≤ a`'s key (stable insertion). -/
def insertByKey (key : α → String) (a : α) : List α → List α
  | [] => [a]
  | b :: l => if strLe (key a) (key b) then a :: b :: l else b :: insertByKey key a l

/-- Stable insertion sort by a string-valued key: the model of JS
`Array.prototype.sort()` under the key's string conversion. -/
def sortByKey (key : α → String) : List α → List α
  | [] => []
  | a :: l => insertByKey key a (sortByKey key l)

theorem perm_insertByKey (key : α → String) (a : α) (l : List α) :
    List.Perm (insertByKey key a l) (a :: l) := by
  induction l with
  | nil => exact List.Perm.refl _
  | cons b t ih =>
    unfold insertByKey
    by_cases h : strLe (key a) (key b) = true
    · rw [if_pos h]
    · rw [if_neg h]
      exact (List.Perm.cons b ih).trans (List.Perm.swap a b t)

theorem perm_sortByKey (key : α → String) (l : List α) :
    List.Perm (sortByKey key l) l := by
  induction l with
  | nil => exact List.Perm.refl _
  | cons a t ih =>
    exact (perm_insertByKey key a (sortByKey key t)).trans (List.Perm.cons a ih)

theorem mem_sortByKey {key : α → String} {a : α} {l : List α}
    (h : a ∈ sortByKey key l) : a ∈ l :=
  (perm_sortByKey key l).mem_iff.mp h

/-- The relation "key of `x` is at most key of `y`". -/
def keyLe (key : α → String) (x y : α) : Prop := strLe (key x) (key y) = true

theorem pairwise_insertByKey {key : α → String} {a : α} {l : List α}
    (hl : l.Pairwise (keyLe key)) :
    (insertByKey key a l).Pairwise (keyLe key) := by
  induction l with
  | nil => simp [insertByKey, List.Pairwise]
  | cons b t ih =>
    rw [List.pairwise_cons] at hl
    unfold insertByKey
    by_cases h : strLe (key a) (key b) = true
    · rw [if_pos h]
      refine List.Pairwise.cons ?_ (List.Pairwise.cons hl.1 hl.2)
      intro c hc
      rcases List.mem_cons.mp hc with hc | hc
      · subst hc; exact h
      · exact strLe_trans h (hl.1 c hc)
    · rw [if_neg h]
      refine List.Pairwise.cons ?_ (ih hl.2)
      intro c hc
      rcases List.mem_cons.mp ((perm_insertByKey key a t).mem_iff.mp hc) with hc | hc
      · rw [hc]
        rcases strLe_total (key a) (key b) with h' | h'
        · exact absurd h' h
        · exact h'
      · exact hl.1 c hc

theorem pairwise_sortByKey (key : α → String) (l : List α) :
    (sortByKey key l).Pairwise (keyLe key) := by
  induction l with
  | nil => simp [sortByKey, List.Pairwise]
  | cons a t ih => exact pairwise_insertByKey ih

/-- Inserting an element whose key is at most every key of an
already-sorted list leaves the list prefixed by the element; hence sorting
an already-sorted list is the identity. -/
theorem insertByKey_of_le {key : α → String} {a : α} {l : List α}
    (h : ∀ b ∈ l, keyLe key a b) :
    insertByKey key a l = a :: l := by
  cases l with
  | nil => rfl
  | cons b t => exact if_pos (h b (List.mem_cons_self b t))

theorem sortByKey_of_pairwise {key : α → String} {l : List α}
    (h : l.Pairwise (keyLe key)) : sortByKey key l = l := by
  induction l with
  | nil => rfl
  | cons a t ih =>
    rw [List.pairwise_cons] at h
    unfold sortByKey
    rw [ih h.2, insertByKey_of_le h.1]

theorem sizeOf_eq_of_perm [SizeOf α] {l₁ l₂ : List α}
    (h : List.Perm l₁ l₂) : sizeOf l₁ = sizeOf l₂ := by
  induction h with
  | nil => rfl
  | cons a _ ih => simp only [List.cons.sizeOf_spec]; omega
  | swap a b l => simp only [List.cons.sizeOf_spec]; omega
  | trans _ _ ih₁ ih₂ => omega

theorem sizeOf_sortByKey [SizeOf α] (key : α → String) (l : List α) :
    sizeOf (sortByKey key l) = sizeOf l :=
  sizeOf_eq_of_perm (perm_sortByKey key l)

/-- Two lists that are permutations of each other and both pairwise-ordered
by an antisymmetric relation are equal. -/
theorem eq_of_perm_of_pairwise_antisymm {R : α → α → Prop}
    (hR : ∀ a b, R a b → R b a → a = b) :
    ∀ (l₁ l₂ : List α), List.Perm l₁ l₂ → l₁.Pairwise R → l₂.Pairwise R → l₁ = l₂ := by
  intro l₁
  induction l₁ with
  | nil =>
    intro l₂ hp _ _
    exact (List.Perm.nil_eq hp).symm ▸ rfl
  | cons a t ih =>
    intro l₂ hp h₁ h₂
    cases l₂ with
    | nil => exact absurd hp.symm (by simp)
    | cons b t₂ =>
      rw [List.pairwise_cons] at h₁ h₂
      have hab : a = b := by
        have ha : a ∈ b :: t₂ := hp.mem_iff.mp (List.mem_cons_self a t)
        rcases List.mem_cons.mp ha with h | h
        · exact h
        · have hb : b ∈ a :: t := hp.symm.mem_iff.mp (List.mem_cons_self b t₂)
          rcases List.mem_cons.mp hb with h' | h'
          · exact h'.symm
          · exact hR a b (h₁.1 b h') (h₂.1 a h)
      subst hab
      rw [ih t₂ (hp.cons_inv) h₁.2 h₂.2]

/-! ### The value model for the Deterministic Serializer

`sortedPrint` (src/main.js lines 238-281) serializes an arbitrary nested JS
value: booleans/numbers, strings, arrays, plain objects. Objects are
modelled as association lists in property insertion order (JS objects with
string keys preserve insertion order, and `obj[key]` for `key` drawn from
`Object.keys(obj)` reads the entry with that key, so with the unique keys a
JS object guarantees, sorting `Object.keys` and indexing is the same as
sorting the (key, value) pairs by key). -/

inductive JSVal where
  | jbool (b : Bool)
  | jnum (n : Int)
  | jstr (s : String)
  | jarr (elems : List JSVal)
  | jobj (fields : List (String × JSVal))

mutual
/-- JS `ToString` as used by the default `Array.prototype.sort` comparator:
booleans and numbers print literally, strings are themselves, arrays join
their members' conversions with commas, plain objects convert to the
constant `"[object Object]"`. -/
def jsToString : JSVal → String
  | .jbool b => if b then "true" else "false"
  | .jnum n => toString n
  | .jstr s => s
  | .jarr xs => jsToStringList xs
  | .jobj _ => "[object Object]"
termination_by v => 2 * sizeOf v + 1
decreasing_by
  all_goals simp_wf
  all_goals omega

def jsToStringList : List JSVal → String
  | [] => ""
  | [x] => jsToString x
  | x :: y :: xs => jsToString x ++ "," ++ jsToStringList (y :: xs)
termination_by l => 2 * sizeOf l
decreasing_by
  all_goals simp_wf
  all_goals omega
end

/-- `indent(n)` from the source: `n` levels of four spaces. -/
def indent : Nat → String
  | 0 => ""
  | n + 1 => indent n ++ "    "

mutual
/-- The text produced by `sortedPrint` (src/main.js lines 238-250). The
source interleaves printing with the in-place `sort()` mutation; in the
tree model the printed text depends only on the input value, computed here,
while the mutation is modelled separately by `printEffect`. -/
def sortedPrint : JSVal → Nat → String
  | .jbool b, _ => if b then "true" else "false"
  | .jnum n, _ => toString n
  | .jstr s, _ => "\"" ++ s ++ "\""
  | .jarr xs, ic => sortedPrintArray xs ic
  | .jobj fs, ic => sortedPrintObject fs ic
termination_by v _ => 4 * sizeOf v + 1
decreasing_by
  all_goals simp_wf
  all_goals omega

/-- `sortedPrintArray` (src/main.js lines 252-265): `array.sort()` (default
comparator: code-unit order of each element's `ToString`), then each element
on its own line at one deeper indent, comma-separated except the last. -/
def sortedPrintArray (array : List JSVal) (indentCount : Nat) : String :=
  if array.length > 0 then
    "[" ++ printedArrayItems (indentCount + 1) (sortByKey jsToString array)
      ++ "\n" ++ indent indentCount ++ "]"
  else "[]"
termination_by 4 * sizeOf array + 3
decreasing_by
  all_goals simp_wf
  all_goals try simp only [sizeOf_sortByKey]
  all_goals omega

def printedArrayItems (ic : Nat) : List JSVal → String
  | [] => ""
  | x :: xs =>
    "\n" ++ indent ic ++ sortedPrint x ic ++ (if xs.isEmpty then "" else ",")
      ++ printedArrayItems ic xs
termination_by l => 4 * sizeOf l + 2
decreasing_by
  all_goals simp_wf
  all_goals omega

/-- `sortedPrintObject` (src/main.js lines 267-281): `Object.keys(obj).sort()`
then `key: value` lines at one deeper indent, comma-separated except the
last; modelled by sorting the (key, value) pairs by key. -/
def sortedPrintObject (fields : List (String × JSVal)) (indentCount : Nat) : String :=
  if fields.length > 0 then
    "\x7b" ++ printedObjectItems (indentCount + 1) (sortByKey Prod.fst fields)
      ++ "\n" ++ indent indentCount ++ "\x7d"
  else "\x7b\x7d"
termination_by 4 * sizeOf fields + 3
decreasing_by
  all_goals simp_wf
  all_goals try simp only [sizeOf_sortByKey]
  all_goals omega

def printedObjectItems (ic : Nat) : List (String × JSVal) → String
  | [] => ""
  | (k, v) :: rest =>
    "\n" ++ indent ic ++ k ++ ": " ++ sortedPrint v ic
      ++ (if rest.isEmpty then "" else ",") ++ printedObjectItems ic rest
termination_by l => 4 * sizeOf l + 2
decreasing_by
  all_goals simp_wf
  all_goals omega
end

mutual
/-- The state of a value after it has been passed through `sortedPrint`:
`array.sort()` reorders every visited array in place (keyed by each
element's `ToString` at the moment the array is sorted, i.e. before its
members' own nested arrays are reordered), while objects keep their key
order and scalars are untouched. -/
def printEffect : JSVal → JSVal
  | .jbool b => .jbool b
  | .jnum n => .jnum n
  | .jstr s => .jstr s
  | .jarr xs => .jarr (printEffectList (sortByKey jsToString xs))
  | .jobj fs => .jobj (printEffectFields fs)
termination_by v => 4 * sizeOf v + 1
decreasing_by
  all_goals simp_wf
  all_goals try simp only [sizeOf_sortByKey]
  all_goals omega

def printEffectList : List JSVal → List JSVal
  | [] => []
  | x :: xs => printEffect x :: printEffectList xs
termination_by l => 4 * sizeOf l + 2
decreasing_by
  all_goals simp_wf
  all_goals omega

def printEffectFields : List (String × JSVal) → List (String × JSVal)
  | [] => []
  | (k, v) :: rest => (k, printEffect v) :: printEffectFields rest
termination_by l => 4 * sizeOf l + 2
decreasing_by
  all_goals simp_wf
  all_goals omega
end

/-- Is the value an array? -/
def JSVal.isArr : JSVal → Bool
  | .jarr _ => true
  | _ => false

mutual
/-- No array in the value directly contains another array. Every catalog
the pipeline builds satisfies this: its only arrays are flat string lists
(enum value sets) and the empty `typeArguments` list. -/
def flatSeq : JSVal → Bool
  | .jbool _ => true
  | .jnum _ => true
  | .jstr _ => true
  | .jarr xs => flatSeqList xs
  | .jobj fs => flatSeqFields fs
termination_by v => 2 * sizeOf v + 1
decreasing_by
  all_goals simp_wf
  all_goals omega

def flatSeqList : List JSVal → Bool
  | [] => true
  | x :: xs => !x.isArr && flatSeq x && flatSeqList xs
termination_by l => 2 * sizeOf l
decreasing_by
  all_goals simp_wf
  all_goals omega

def flatSeqFields : List (String × JSVal) → Bool
  | [] => true
  | (_, v) :: rest => flatSeq v && flatSeqFields rest
termination_by l => 2 * sizeOf l
decreasing_by
  all_goals simp_wf
  all_goals omega
end


/-! ### The declaration graph

A tscore type descriptor carries a `type` tag, for object descriptors a
`meta.kind` role tag and a property map, for enum/reference descriptors a
qualified `name`, and a list of call signatures (only its length matters to
the pipeline). The JS shape `obj.properties[propName].type` is collapsed so
that `props` maps a property name directly to the property's type
descriptor. Absent JS fields are `none` / `[]` / `0`. -/

inductive Decl where
  | mk (type : String) (kind : Option String) (name : Option String)
       (props : List (String × Decl)) (callsCount : Nat)

def Decl.type : Decl → String
  | .mk t _ _ _ _ => t

def Decl.kind : Decl → Option String
  | .mk _ k _ _ _ => k

def Decl.name : Decl → Option String
  | .mk _ _ n _ _ => n

def Decl.props : Decl → List (String × Decl)
  | .mk _ _ _ p _ => p

def Decl.callsCount : Decl → Nat
  | .mk _ _ _ _ c => c

/-- The declaration graph: fully-qualified name to `env[name].object`. -/
abbrev Env := List (String × Decl)

/-- The enum map: enum qualified name to ordered member names. -/
abbrev Enums := List (String × List String)

/-- Plain JS-object key lookup on an association list (JS objects have
unique keys, so first match is the only match). -/
def lookupStr (l : List (String × α)) (k : String) : Option α :=
  match l with
  | [] => none
  | (k', v) :: r => if k' = k then some v else lookupStr r k

/-- `obj[k] = v` on a JS object: overwrite in place if the key exists
(keeping its position), otherwise append. -/
def objInsert (l : List (String × α)) (k : String) (v : α) : List (String × α) :=
  match l with
  | [] => [(k, v)]
  | (k', v') :: r => if k' = k then (k, v) :: r else (k', v') :: objInsert r k v

/-- `set[k] = true` on a JS object used as a set: append if absent. -/
def insertKey (l : List String) (k : String) : List String :=
  if l.contains k then l else l ++ [k]

/-- `Object.keys(missingEvents).sort()`. -/
def sortStrings (l : List String) : List String := sortByKey (fun s => s) l

/-- `isBuiltin` (src/main.js line 21):
`["number", "string", "boolean", "void", "any"].indexOf(obj.type) >= 0`. -/
def isBuiltin (obj : Decl) : Bool :=
  ["number", "string", "boolean", "void", "any"].contains obj.type

/-- `isType` (src/main.js line 25): `obj.type === type`. -/
def isType (t : String) (obj : Decl) : Bool := obj.type == t

def isObject (obj : Decl) : Bool := isType "object" obj

def isReference (obj : Decl) : Bool := isType "reference" obj

def isEnum (obj : Decl) : Bool := isType "enum" obj

/-- `isKind` (src/main.js line 34): `isObject(obj) && obj.meta.kind === kind`. -/
def isKind (kind : String) (obj : Decl) : Bool :=
  isObject obj && obj.kind == some kind

def isModule (obj : Decl) : Bool := isKind "module" obj

def isInterface (obj : Decl) : Bool := isKind "interface" obj

def isClass (obj : Decl) : Bool := isKind "class" obj

/-- `isFunction` (src/main.js line 46):
`isInterface(obj) && obj.calls && obj.calls.length > 0`. -/
def isFunction (obj : Decl) : Bool :=
  isInterface obj && decide (obj.callsCount > 0)

/-- `isEvent` (src/main.js line 50): `startsWith(propName, "on")`. -/
def isEvent (propName : String) : Bool := startsWithS propName "on"

/-- The property-type condition guarding classification
(src/main.js line 171). -/
def classifiable (p : Decl) : Bool :=
  isBuiltin p || isReference p || isEnum p || isFunction p

/-- `eventNameCapitalization` (src/main.js lines 54-103). -/
def eventNameCapitalization : List (String × String) := [
  ("onaccessibilityannotationcomplete", "onAccessibilityAnnotationComplete"),
  ("onafterclose", "onAfterClose"),
  ("onafterhide", "onAfterHide"),
  ("onafteropen", "onAfterOpen"),
  ("onaftershow", "onAfterShow"),
  ("onbeforeclose", "onBeforeClose"),
  ("onbeforehide", "onBeforeHide"),
  ("onbeforeopen", "onBeforeOpen"),
  ("onbeforeshow", "onBeforeShow"),
  ("oncancel", "onCancel"),
  ("onchange", "onChange"),
  ("onchildrenprocessed", "onChildrenProcessed"),
  ("onclick", "onClick"),
  ("onclosed", "onClosed"),
  ("oncontentanimating", "onContentAnimating"),
  ("ondatasourcecountchanged", "onDataSourceCountChanged"),
  ("onfootervisibilitychanged", "onFooterVisibilityChanged"),
  ("ongroupheaderinvoked", "onGroupHeaderInvoked"),
  ("onheaderinvoked", "onHeaderInvoked"),
  ("onheadervisibilitychanged", "onHeaderVisibilityChanged"),
  ("oninvoked", "onInvoked"),
  ("onitemanimationend", "onItemAnimationEnd"),
  ("onitemanimationstart", "onItemAnimationStart"),
  ("onitemdragbetween", "onItemDragBetween"),
  ("onitemdragchanged", "onItemDragChanged"),
  ("onitemdragdrop", "onItemDragDrop"),
  ("onitemdragend", "onItemDragEnd"),
  ("onitemdragenter", "onItemDragEnter"),
  ("onitemdragleave", "onItemDragLeave"),
  ("onitemdragstart", "onItemDragStart"),
  ("oniteminvoked", "onItemInvoked"),
  ("onkeyboardnavigating", "onKeyboardNavigating"),
  ("onloadingstatechanged", "onLoadingStateChanged"),
  ("onopened", "onOpened"),
  ("onpagecompleted", "onPageCompleted"),
  ("onpageselected", "onPageSelected"),
  ("onpagevisibilitychanged", "onPageVisibilityChanged"),
  ("onpreviewchange", "onPreviewChange"),
  ("onquerychanged", "onQueryChanged"),
  ("onquerysubmitted", "onQuerySubmitted"),
  ("onreceivingfocusonkeyboardinput", "onReceivingFocusOnKeyboardInput"),
  ("onresultsuggestionchosen", "onResultSuggestionChosen"),
  ("onresultsuggestionschosen", "onResultSuggestionsChosen"),
  ("onselectionchanged", "onSelectionChanged"),
  ("onselectionchanging", "onSelectionChanging"),
  ("onsplittoggle", "onSplitToggle"),
  ("onsuggestionsrequested", "onSuggestionsRequested"),
  ("onzoomchanged", "onZoomChanged")]

/-- `namespacesToIgnore` (src/main.js lines 105-117) — the ExclusionSet. -/
def namespacesToIgnore : List String := [
  "WinJS.UI.DOMEventMixin",
  "WinJS.UI.HtmlControl",
  "WinJS.UI.Layout",
  "WinJS.UI.MediaElementAdapter",
  "WinJS.UI.MediaPlayer",
  "WinJS.UI.Repeater",
  "WinJS.UI.SettingsFlyout",
  "WinJS.UI.StorageDataSource",
  "WinJS.UI.TabContainer",
  "WinJS.UI.ViewBox",
  "WinJS.UI.VirtualizedDataSource"]

/-- `keepNamespace` (src/main.js lines 118-121). -/
def keepNamespace (name : String) (obj : Decl) : Bool :=
  isClass obj && startsWithS name "WinJS.UI." &&
    !(namespacesToIgnore.contains name)

/-- The property metadata stored in the catalog: either the property's own
type descriptor passed through (`props[propName] = p`), a resolved enum
value set (`{type: 'enum', values: [...]}` from `getEnumTypeInfo` or
`getStringBasedEnumTypeInfo`), or the shared `eventTypeInfo` marker
`{name: 'Function', type: 'reference', typeArguments: []}`
(src/main.js lines 123-127). -/
inductive PropInfo where
  | passthrough (p : Decl)
  | enumInfo (values : List String)
  | eventMarker

/-- The catalog built by `getControlsAndProperties`. -/
abbrev Catalog := List (String × List (String × PropInfo))

/-- How a run of the tool fails: the explicit `throw` on an unclassifiable
property descriptor (NYI), an implicit JS `TypeError` from an unguarded
dereference of a missing entry, or the end-of-run diagnostic for unknown
event capitalizations, which prints every missing name in sorted order and
then throws (src/main.js lines 205-212) — the carried list models that
printed, sorted list. -/
inductive RunError where
  | nyi (p : Decl)
  | typeError (msg : String)
  | unknownEvents (sortedNames : List String)

/-- `getEnumTypeInfo` (src/main.js lines 129-137):
`{type: 'enum', values: enums[name].map(lastSegment)}`. A missing entry in
`enums` (including an undefined `name`) makes the JS crash on
`undefined.map`, modelled as a `typeError`. -/
def getEnumTypeInfo (enums : Enums) (name : Option String) : Except RunError PropInfo :=
  match name with
  | none => .error (.typeError "enums[undefined].map is not a function")
  | some qn =>
    match lookupStr enums qn with
    | none => .error (.typeError ("enums[" ++ qn ++ "].map is not a function"))
    | some vs => .ok (.enumInfo (vs.map lastSeg))

/-- `getStringBasedEnumTypeInfo` (src/main.js lines 146-163). Note the
unguarded `env['module:WinJS.UI'].object` dereference: once the namespace
matches `WinJS.UI.` with exactly three dot segments, a missing
`module:WinJS.UI` entry crashes the run instead of falling back to null;
likewise `propName[0]` on an empty property name. -/
def getStringBasedEnumTypeInfo (env : Env) (ns : String) (propName : String) :
    Except RunError (Option PropInfo) :=
  if startsWithS ns "WinJS.UI." && (splitDot ns).length == 3 then
    match lookupStr env "module:WinJS.UI" with
    | none => .error (.typeError "env[module:WinJS.UI].object is undefined")
    | some mdl =>
      match lookupStr mdl.props ((splitDot ns).getLastD "") with
      | none => .ok none
      | some theClass =>
        match propName.data with
        | [] => .error (.typeError "propName[0].toUpperCase is undefined")
        | _ :: _ =>
          match lookupStr theClass.props (capFirst propName) with
          | none => .ok none
          | some enumDef => .ok (some (.enumInfo (enumDef.props.map Prod.fst)))
  else .ok none

/-- The property loop of `getProperties` (src/main.js lines 167-193),
written as explicit recursion over the property list with the `props`
object and the run-scoped `missingEvents` set passed as state. -/
def getPropsGo (env : Env) (enums : Enums) (ns : String) :
    List (String × Decl) → List (String × PropInfo) → List String →
    Except RunError (List (String × PropInfo) × List String)
  | [], props, missing => .ok (props, missing)
  | (propName, p) :: rest, props, missing =>
    if isBuiltin p || isReference p || isEnum p || isFunction p then
      if isEvent propName then
        match lookupStr eventNameCapitalization propName with
        | some cap => getPropsGo env enums ns rest (objInsert props cap .eventMarker) missing
        | none => getPropsGo env enums ns rest props (insertKey missing propName)
      else if isEnum p then
        match getEnumTypeInfo enums p.name with
        | .error e => .error e
        | .ok info => getPropsGo env enums ns rest (objInsert props propName info) missing
      else if p.type == "string" then
        match getStringBasedEnumTypeInfo env ns propName with
        | .error e => .error e
        | .ok r =>
          getPropsGo env enums ns rest (objInsert props propName (r.getD (.passthrough p))) missing
      else if !(isFunction p) then
        getPropsGo env enums ns rest (objInsert props propName (.passthrough p)) missing
      else
        getPropsGo env enums ns rest props missing
    else .error (.nyi p)

/-- `getProperties` (src/main.js lines 167-193). -/
def getProperties (env : Env) (enums : Enums) (ns : String) (obj : Decl)
    (missing : List String) :
    Except RunError (List (String × PropInfo) × List String) :=
  getPropsGo env enums ns obj.props [] missing

/-- The `for (var namespace in env)` loop of `getControlsAndProperties`
(src/main.js lines 195-203): JS for-in order over an object with
non-numeric string keys is insertion order, modelled by the list order. -/
def gcapGo (env : Env) (enums : Enums) :
    List (String × Decl) → Catalog → List String →
    Except RunError (Catalog × List String)
  | [], out, missing => .ok (out, missing)
  | (ns, obj) :: rest, out, missing =>
    if keepNamespace ns obj then
      match getProperties env enums ns obj missing with
      | .error e => .error e
      | .ok (props, missing2) =>
        gcapGo env enums rest (objInsert out (lastSeg ns) props) missing2
    else gcapGo env enums rest out missing

/-- `getControlsAndProperties` (src/main.js lines 165-215): traverse the
whole graph, then fail with the sorted list of unknown event names if any
were collected, otherwise return the catalog. -/
def getControlsAndProperties (env : Env) (enums : Enums) : Except RunError Catalog :=
  match gcapGo env enums env [] [] with
  | .error e => .error e
  | .ok (out, missing) =>
    if missing.isEmpty then .ok out
    else .error (.unknownEvents (sortStrings missing))


/-! ### The earlier variant (src/unnamed/part_000)

Same declaration-graph model; properties of a kept control are collected as
a plain list of names, builtin/reference/enum-typed properties are subject
to `keepProperty` (no "element"-suffixed names), and only function-shaped
properties take the event path. -/

namespace V0

/-- `eventNameCapitalization` (src/unnamed/part_000 lines 58-100). -/
def eventNameCapitalization : List (String × String) := [
  ("onafterhide", "onAfterHide"),
  ("onaftershow", "onAfterShow"),
  ("onbeforeclose", "onBeforeClose"),
  ("onbeforehide", "onBeforeHide"),
  ("onbeforeopen", "onBeforeOpen"),
  ("onbeforeshow", "onBeforeShow"),
  ("oncancel", "onCancel"),
  ("onchange", "onChange"),
  ("onchildrenprocessed", "onChildrenProcessed"),
  ("onclosed", "onClosed"),
  ("oncontentanimating", "onContentAnimating"),
  ("ondatasourcecountchanged", "onDataSourceCountChanged"),
  ("ongroupheaderinvoked", "onGroupHeaderInvoked"),
  ("onheaderinvoked", "onHeaderInvoked"),
  ("oninvoked", "onInvoked"),
  ("onitemanimationend", "onItemAnimationEnd"),
  ("onitemanimationstart", "onItemAnimationStart"),
  ("onitemdragbetween", "onItemDragBetween"),
  ("onitemdragchanged", "onItemDragChanged"),
  ("onitemdragdrop", "onItemDragDrop"),
  ("onitemdragend", "onItemDragEnd"),
  ("onitemdragenter", "onItemDragEnter"),
  ("onitemdragleave", "onItemDragLeave"),
  ("onitemdragstart", "onItemDragStart"),
  ("oniteminvoked", "onItemInvoked"),
  ("onkeyboardnavigating", "onKeyboardNavigating"),
  ("onloadingstatechanged", "onLoadingStateChanged"),
  ("onopened", "onOpened"),
  ("onpagecompleted", "onPageCompleted"),
  ("onpageselected", "onPageSelected"),
  ("onpagevisibilitychanged", "onPageVisibilityChanged"),
  ("onpreviewchange", "onPreviewChange"),
  ("onquerychanged", "onQueryChanged"),
  ("onquerysubmitted", "onQuerySubmitted"),
  ("onreceivingfocusonkeyboardinput", "onReceivingFocusOnKeyboardInput"),
  ("onresultsuggestionschosen", "onResultSuggestionsChosen"),
  ("onselectionchanged", "onSelectionChanged"),
  ("onselectionchanging", "onSelectionChanging"),
  ("onsplittoggle", "onSplitToggle"),
  ("onsuggestionsrequested", "onSuggestionsRequested"),
  ("onzoomchanged", "onZoomChanged")]

/-- `namespacesToIgnore` (src/unnamed/part_000 lines 102-112). -/
def namespacesToIgnore : List String := [
  "WinJS.UI.DOMEventMixin",
  "WinJS.UI.HtmlControl",
  "WinJS.UI.Layout",
  "WinJS.UI.Repeater",
  "WinJS.UI.SettingsFlyout",
  "WinJS.UI.StorageDataSource",
  "WinJS.UI.TabContainer",
  "WinJS.UI.ViewBox",
  "WinJS.UI.VirtualizedDataSource"]

/-- `keepNamespace` (src/unnamed/part_000 lines 113-116). -/
def keepNamespace (name : String) (obj : Decl) : Bool :=
  isClass obj && startsWithS name "WinJS.UI." &&
    !(namespacesToIgnore.contains name)

/-- `keepProperty` (src/unnamed/part_000 lines 118-120):
`!endsWith(propertyName.toLowerCase(), "element")`. -/
def keepProperty (propertyName : String) : Bool :=
  !(endsWithS (toLowerS propertyName) "element")

/-- The property loop of `getProperties` (src/unnamed/part_000 lines
124-147): property names are pushed onto an array; builtin/reference/enum
types go through `keepProperty`, function-shaped properties go through the
event path, anything else is the NYI throw. -/
def getPropsGo : List (String × Decl) → List String → List String →
    Except RunError (List String × List String)
  | [], props, missing => .ok (props, missing)
  | (propName, p) :: rest, props, missing =>
    if isBuiltin p || isReference p || isEnum p then
      if keepProperty propName then getPropsGo rest (props ++ [propName]) missing
      else getPropsGo rest props missing
    else if isFunction p then
      if isEvent propName then
        match lookupStr eventNameCapitalization propName with
        | some cap => getPropsGo rest (props ++ [cap]) missing
        | none => getPropsGo rest props (insertKey missing propName)
      else getPropsGo rest props missing
    else .error (.nyi p)

/-- `getProperties` (src/unnamed/part_000 lines 124-147). -/
def getProperties (obj : Decl) (missing : List String) :
    Except RunError (List String × List String) :=
  getPropsGo obj.props [] missing

/-- The `for (var namespace in env)` loop (src/unnamed/part_000 lines
149-157). -/
def gcapGo : List (String × Decl) → List (String × List String) → List String →
    Except RunError (List (String × List String) × List String)
  | [], out, missing => .ok (out, missing)
  | (ns, obj) :: rest, out, missing =>
    if keepNamespace ns obj then
      match getProperties obj missing with
      | .error e => .error e
      | .ok (props, missing2) =>
        gcapGo rest (objInsert out (lastSeg ns) props) missing2
    else gcapGo rest out missing

/-- `getControlsAndProperties` (src/unnamed/part_000 lines 122-169). -/
def getControlsAndProperties (env : Env) :
    Except RunError (List (String × List String)) :=
  match gcapGo env [] [] with
  | .error e => .error e
  | .ok (out, missing) =>
    if missing.isEmpty then .ok out
    else .error (.unknownEvents (sortStrings missing))

end V0


/-! ### Helper lemmas about the JS-object operations -/

theorem mem_map_fst_objInsert (l : List (String × α)) (k k' : String) (v : α) :
    k' ∈ (objInsert l k v).map Prod.fst ↔ k' = k ∨ k' ∈ l.map Prod.fst := by
  induction l with
  | nil => simp [objInsert]
  | cons kv r ih =>
    obtain ⟨k0, v0⟩ := kv
    by_cases h : k0 = k
    · subst h
      simp [objInsert]
    · simp [objInsert, h, ih]
      tauto

/-- The fully-qualified names kept by the namespace filter, mapped to
their output keys (last dot segment). -/
def keptKeys (l : List (String × Decl)) : List String :=
  (l.filter (fun e => keepNamespace e.1 e.2)).map (fun e => lastSeg e.1)

theorem gcapGo_ok_keys (env0 : Env) (enums : Enums) :
    ∀ (l : List (String × Decl)) (out : Catalog) (missing : List String)
      (out' : Catalog) (m' : List String),
    gcapGo env0 enums l out missing = .ok (out', m') →
    ∀ k, k ∈ out'.map Prod.fst ↔ k ∈ out.map Prod.fst ∨ k ∈ keptKeys l := by
  intro l
  induction l with
  | nil =>
    intro out missing out' m' h k
    simp [gcapGo] at h
    rw [← h.1]
    simp [keptKeys]
  | cons e rest ih =>
    obtain ⟨ns, obj⟩ := e
    intro out missing out' m' h k
    by_cases hk : keepNamespace ns obj
    · rw [gcapGo, if_pos hk] at h
      cases hg : getProperties env0 enums ns obj missing with
      | error err => rw [hg] at h; exact absurd h (by simp)
      | ok pm =>
        obtain ⟨props, m2⟩ := pm
        rw [hg] at h
        have hkeys := ih _ _ _ _ h k
        rw [hkeys, mem_map_fst_objInsert]
        have hfil : keptKeys ((ns, obj) :: rest) = lastSeg ns :: keptKeys rest := by
          simp [keptKeys, List.filter_cons, hk]
        rw [hfil]
        simp only [List.mem_cons]
        tauto
    · rw [gcapGo, if_neg hk] at h
      have hkeys := ih _ _ _ _ h k
      rw [hkeys]
      have hfil : keptKeys ((ns, obj) :: rest) = keptKeys rest := by
        simp [keptKeys, List.filter_cons, hk]
      rw [hfil]

theorem getControlsAndProperties_ok_elim {env : Env} {enums : Enums} {out : Catalog}
    (h : getControlsAndProperties env enums = .ok out) :
    gcapGo env enums env [] [] = .ok (out, []) := by
  unfold getControlsAndProperties at h
  cases hg : gcapGo env enums env [] [] with
  | error e => rw [hg] at h; exact absurd h (by simp)
  | ok pm =>
    obtain ⟨out0, m⟩ := pm
    rw [hg] at h
    by_cases hm : m.isEmpty
    · simp [hm] at h
      rw [List.isEmpty_iff] at hm
      rw [hm, h]
    · simp [hm] at h


/-! ### Concrete scenario values (shared by several claims) -/

/-- The primitive string descriptor `{type: 'string'}`. -/
def stringD : Decl := .mk "string" none none [] 0

/-- The primitive number descriptor `{type: 'number'}`. -/
def numberD : Decl := .mk "number" none none [] 0

/-- A reference-type descriptor. -/
def refD : Decl := .mk "reference" none (some "HTMLElement") [] 0

/-- A function-shaped descriptor: interface with one call signature. -/
def funShapedD : Decl := .mk "object" (some "interface") none [] 1

/-- The enum-typed descriptor of `Foo.mode`. -/
def modeD : Decl := .mk "enum" none (some "WinJS.UI.Foo.Mode") [] 0

/-- The spec's concrete scenario control `WinJS.UI.Foo` with properties
`title: string`, `onclick: function-shaped`, `mode: enum`. -/
def fooClassD : Decl :=
  .mk "object" (some "class") none
    [("title", stringD), ("onclick", funShapedD), ("mode", modeD)] 0

/-- The enclosing `module:WinJS.UI` declaration, whose `Foo` property's
type is the `Foo` class descriptor. -/
def moduleD : Decl := .mk "object" (some "module") none [("Foo", fooClassD)] 0

/-- The scenario declaration graph: the `WinJS.UI` module entry and the
single control `WinJS.UI.Foo`. -/
def env7 : Env := [("module:WinJS.UI", moduleD), ("WinJS.UI.Foo", fooClassD)]

/-- The scenario enum map with `WinJS.UI.Foo.Mode`'s two members. -/
def enums7 : Enums :=
  [("WinJS.UI.Foo.Mode", ["WinJS.UI.Foo.Mode.A", "WinJS.UI.Foo.Mode.B"])]

/-- The property metadata the scenario run produces for `Foo`, in
insertion order. -/
def props7 : List (String × PropInfo) :=
  [("title", .passthrough stringD), ("onClick", .eventMarker),
   ("mode", .enumInfo ["A", "B"])]

/-- The catalog the scenario run produces. -/
def catalog7 : Catalog := [("Foo", props7)]

/-! ### Claim C2 — namespace filtering -/

/-- C2: a declaration enters the catalog iff it is a class-role object
declaration whose fully-qualified name starts with "WinJS.UI." and is not
in the ExclusionSet `namespacesToIgnore`; no excluded name is ever kept;
and a successful run's catalog keys are exactly the last dot-segments of
the kept declarations' fully-qualified names. -/
theorem claim_C2 :
    (∀ name obj, keepNamespace name obj = true ↔
      (isClass obj = true ∧ startsWithS name "WinJS.UI." = true ∧
        name ∉ namespacesToIgnore))
    ∧ (∀ name obj, name ∈ namespacesToIgnore → keepNamespace name obj = false)
    ∧ (∀ env enums out k, getControlsAndProperties env enums = .ok out →
        (k ∈ out.map Prod.fst ↔
          ∃ ns obj, (ns, obj) ∈ env ∧ keepNamespace ns obj = true ∧
            k = lastSeg ns)) := by
  refine ⟨?_, ?_, ?_⟩
  · intro name obj
    simp [keepNamespace]
    tauto
  · intro name obj h
    simp [keepNamespace, h]
  · intro env enums out k h
    have hkeys := gcapGo_ok_keys env enums env [] [] out []
      (getControlsAndProperties_ok_elim h) k
    simp only [List.map_nil, List.not_mem_nil, false_or] at hkeys
    rw [hkeys]
    simp only [keptKeys, List.mem_map, List.mem_filter]
    constructor
    · rintro ⟨⟨ns, obj⟩, ⟨hmem, hkeep⟩, hlast⟩
      exact ⟨ns, obj, hmem, hkeep, hlast.symm⟩
    · rintro ⟨ns, obj, hmem, hkeep, hlast⟩
      exact ⟨(ns, obj), ⟨hmem, hkeep⟩, hlast.symm⟩

/-- Witness for C2 at concrete inputs: `WinJS.UI.Foo` (a class under the
root) is kept, the excluded `WinJS.UI.Layout` is never kept, and the
scenario run's catalog has exactly the key `Foo` = last segment of
`WinJS.UI.Foo`. -/
theorem claim_C2_witness :
    keepNamespace "WinJS.UI.Foo" fooClassD = true
    ∧ keepNamespace "WinJS.UI.Layout" fooClassD = false
    ∧ "Foo" ∈ catalog7.map Prod.fst := by
  refine ⟨?_, ?_, ?_⟩
  · exact (claim_C2.1 "WinJS.UI.Foo" fooClassD).mpr (by decide)
  · exact claim_C2.2.1 "WinJS.UI.Layout" fooClassD (by decide)
  · exact (claim_C2.2.2 env7 enums7 catalog7 "Foo" (by rfl)).mpr
      ⟨"WinJS.UI.Foo", fooClassD, by simp [env7], by decide, by rfl⟩


/-! ### Claim C3 — batched event-name validation -/

theorem mem_insertKey_self (l : List String) (k : String) : k ∈ insertKey l k := by
  unfold insertKey
  by_cases h : k ∈ l <;> simp [h]

theorem mem_insertKey_mono {l : List String} {k x : String} (h : x ∈ l) :
    x ∈ insertKey l k := by
  unfold insertKey
  by_cases hc : k ∈ l <;> simp [hc, h]

/-- One step of the property loop: a successful run of the loop on a
non-empty property list is a successful run on the tail from a state that
retains all previously missing names, and that records the head property's
name if it is a classifiable "on"-prefixed property absent from the
capitalization table. -/
theorem getPropsGo_cons_ok {env : Env} {enums : Enums} {ns pn : String} {p : Decl}
    {rest : List (String × Decl)} {props : List (String × PropInfo)}
    {missing : List String} {props' : List (String × PropInfo)} {missing' : List String}
    (h : getPropsGo env enums ns ((pn, p) :: rest) props missing = .ok (props', missing')) :
    ∃ props2 missing2,
      getPropsGo env enums ns rest props2 missing2 = .ok (props', missing')
      ∧ (∀ x ∈ missing, x ∈ missing2)
      ∧ (classifiable p = true → isEvent pn = true →
          lookupStr eventNameCapitalization pn = none → pn ∈ missing2) := by
  simp only [getPropsGo] at h
  by_cases hcls : (isBuiltin p || isReference p || isEnum p || isFunction p) = true
  · rw [if_pos hcls] at h
    by_cases hev : isEvent pn = true
    · rw [if_pos hev] at h
      cases hl : lookupStr eventNameCapitalization pn with
      | some cap =>
        rw [hl] at h
        exact ⟨_, missing, h, fun x hx => hx,
          fun _ _ hnone => absurd hnone (by simp)⟩
      | none =>
        rw [hl] at h
        exact ⟨props, insertKey missing pn, h,
          fun x hx => mem_insertKey_mono hx,
          fun _ _ _ => mem_insertKey_self missing pn⟩
    · rw [if_neg hev] at h
      by_cases hen : isEnum p = true
      · rw [if_pos hen] at h
        cases hgi : getEnumTypeInfo enums p.name with
        | error e => rw [hgi] at h; exact absurd h (by simp)
        | ok info =>
          rw [hgi] at h
          exact ⟨_, missing, h, fun x hx => hx, fun _ hev' => absurd hev' hev⟩
      · rw [if_neg hen] at h
        by_cases hstr : (p.type == "string") = true
        · rw [if_pos hstr] at h
          cases hsb : getStringBasedEnumTypeInfo env ns pn with
          | error e => rw [hsb] at h; exact absurd h (by simp)
          | ok r =>
            rw [hsb] at h
            exact ⟨_, missing, h, fun x hx => hx, fun _ hev' => absurd hev' hev⟩
        · rw [if_neg hstr] at h
          by_cases hfn : (!(isFunction p)) = true
          · rw [if_pos hfn] at h
            exact ⟨_, missing, h, fun x hx => hx, fun _ hev' => absurd hev' hev⟩
          · rw [if_neg hfn] at h
            exact ⟨props, missing, h, fun x hx => hx, fun _ hev' => absurd hev' hev⟩
  · rw [if_neg hcls] at h
    exact absurd h (by simp)

theorem getPropsGo_missing_mono {env : Env} {enums : Enums} {ns : String} :
    ∀ (l : List (String × Decl)) (props : List (String × PropInfo))
      (missing : List String) (props' : List (String × PropInfo)) (missing' : List String),
    getPropsGo env enums ns l props missing = .ok (props', missing') →
    ∀ x ∈ missing, x ∈ missing' := by
  intro l
  induction l with
  | nil =>
    intro props missing props' missing' h x hx
    simp [getPropsGo] at h
    rw [← h.2]
    exact hx
  | cons e rest ih =>
    obtain ⟨pn, p⟩ := e
    intro props missing props' missing' h x hx
    obtain ⟨props2, missing2, h2, hmono, _⟩ := getPropsGo_cons_ok h
    exact ih props2 missing2 props' missing' h2 x (hmono x hx)

theorem getPropsGo_records {env : Env} {enums : Enums} {ns : String} :
    ∀ (l : List (String × Decl)) (props : List (String × PropInfo))
      (missing : List String) (props' : List (String × PropInfo)) (missing' : List String),
    getPropsGo env enums ns l props missing = .ok (props', missing') →
    ∀ pn p, (pn, p) ∈ l → classifiable p = true → isEvent pn = true →
      lookupStr eventNameCapitalization pn = none → pn ∈ missing' := by
  intro l
  induction l with
  | nil =>
    intro props missing props' missing' h pn p hmem
    exact absurd hmem (List.not_mem_nil _)
  | cons e rest ih =>
    obtain ⟨pn0, p0⟩ := e
    intro props missing props' missing' h pn p hmem hcls hev hnone
    obtain ⟨props2, missing2, h2, hmono, hrec⟩ := getPropsGo_cons_ok h
    rcases List.mem_cons.mp hmem with hhd | htl
    · injection hhd with h1 h2
      subst h1
      subst h2
      exact getPropsGo_missing_mono rest props2 missing2 props' missing' h2 pn
        (hrec hcls hev hnone)
    · exact ih props2 missing2 props' missing' h2 pn p htl hcls hev hnone


theorem getEnumTypeInfo_error_shape {enums : Enums} {name : Option String}
    {e : RunError} (h : getEnumTypeInfo enums name = .error e) :
    ∃ msg, e = .typeError msg := by
  cases name with
  | none =>
    simp [getEnumTypeInfo] at h
    exact ⟨_, h.symm⟩
  | some qn =>
    unfold getEnumTypeInfo at h
    cases hl : lookupStr enums qn with
    | none =>
      simp [hl] at h
      exact ⟨_, h.symm⟩
    | some vs =>
      simp [hl] at h

theorem getStringBasedEnumTypeInfo_error_shape {env : Env} {ns pn : String}
    {e : RunError} (h : getStringBasedEnumTypeInfo env ns pn = .error e) :
    ∃ msg, e = .typeError msg := by
  unfold getStringBasedEnumTypeInfo at h
  by_cases hc : (startsWithS ns "WinJS.UI." && (splitDot ns).length == 3) = true
  · rw [if_pos hc] at h
    cases hm : lookupStr env "module:WinJS.UI" with
    | none =>
      simp [hm] at h
      exact ⟨_, h.symm⟩
    | some mdl =>
      cases hcl : lookupStr mdl.props ((splitDot ns).getLastD "") with
      | none =>
        rw [List.getLastD_eq_getLast?] at hcl
        simp [hm, hcl] at h
      | some theClass =>
        rw [List.getLastD_eq_getLast?] at hcl
        cases hd : pn.data with
        | nil =>
          simp [hm, hcl, hd] at h
          exact ⟨_, h.symm⟩
        | cons c cs =>
          cases he : lookupStr theClass.props (capFirst pn) with
          | none => simp [hm, hcl, hd, he] at h
          | some enumDef => simp [hm, hcl, hd, he] at h
  · rw [if_neg hc] at h
    exact absurd h (by simp)

theorem getPropsGo_error_shape {env : Env} {enums : Enums} {ns : String} :
    ∀ (l : List (String × Decl)) (props : List (String × PropInfo))
      (missing : List String) (e : RunError),
    getPropsGo env enums ns l props missing = .error e →
    (∃ p, e = .nyi p) ∨ (∃ msg, e = .typeError msg) := by
  intro l
  induction l with
  | nil =>
    intro props missing e h
    exact absurd h (by simp [getPropsGo])
  | cons entry rest ih =>
    obtain ⟨pn, p⟩ := entry
    intro props missing e h
    simp only [getPropsGo] at h
    by_cases hcls : (isBuiltin p || isReference p || isEnum p || isFunction p) = true
    · rw [if_pos hcls] at h
      by_cases hev : isEvent pn = true
      · rw [if_pos hev] at h
        cases hl : lookupStr eventNameCapitalization pn with
        | some cap => rw [hl] at h; exact ih _ _ _ h
        | none => rw [hl] at h; exact ih _ _ _ h
      · rw [if_neg hev] at h
        by_cases hen : isEnum p = true
        · rw [if_pos hen] at h
          cases hgi : getEnumTypeInfo enums p.name with
          | error e' =>
            rw [hgi] at h
            simp at h
            obtain ⟨msg, hmsg⟩ := getEnumTypeInfo_error_shape hgi
            exact Or.inr ⟨msg, h ▸ hmsg⟩
          | ok info => rw [hgi] at h; exact ih _ _ _ h
        · rw [if_neg hen] at h
          by_cases hstr : (p.type == "string") = true
          · rw [if_pos hstr] at h
            cases hsb : getStringBasedEnumTypeInfo env ns pn with
            | error e' =>
              rw [hsb] at h
              simp at h
              obtain ⟨msg, hmsg⟩ := getStringBasedEnumTypeInfo_error_shape hsb
              exact Or.inr ⟨msg, h ▸ hmsg⟩
            | ok r => rw [hsb] at h; exact ih _ _ _ h
          · rw [if_neg hstr] at h
            by_cases hfn : (!(isFunction p)) = true
            · rw [if_pos hfn] at h; exact ih _ _ _ h
            · rw [if_neg hfn] at h; exact ih _ _ _ h
    · rw [if_neg hcls] at h
      simp at h
      exact Or.inl ⟨p, h.symm⟩

theorem gcapGo_error_shape (env0 : Env) (enums : Enums) :
    ∀ (l : List (String × Decl)) (out : Catalog) (missing : List String) (e : RunError),
    gcapGo env0 enums l out missing = .error e →
    (∃ p, e = .nyi p) ∨ (∃ msg, e = .typeError msg) := by
  intro l
  induction l with
  | nil =>
    intro out missing e h
    exact absurd h (by simp [gcapGo])
  | cons entry rest ih =>
    obtain ⟨ns, obj⟩ := entry
    intro out missing e h
    by_cases hk : keepNamespace ns obj
    · rw [gcapGo, if_pos hk] at h
      cases hg : getProperties env0 enums ns obj missing with
      | error e' =>
        rw [hg] at h
        simp at h
        obtain hsh := getPropsGo_error_shape obj.props [] missing e' hg
        rcases hsh with ⟨p, hp⟩ | ⟨msg, hmsg⟩
        · exact Or.inl ⟨p, h ▸ hp⟩
        · exact Or.inr ⟨msg, h ▸ hmsg⟩
      | ok pm =>
        obtain ⟨props, m2⟩ := pm
        rw [hg] at h
        exact ih _ _ _ h
    · rw [gcapGo, if_neg hk] at h
      exact ih _ _ _ h

theorem gcapGo_missing_mono (env0 : Env) (enums : Enums) :
    ∀ (l : List (String × Decl)) (out : Catalog) (missing : List String)
      (out' : Catalog) (m' : List String),
    gcapGo env0 enums l out missing = .ok (out', m') →
    ∀ x ∈ missing, x ∈ m' := by
  intro l
  induction l with
  | nil =>
    intro out missing out' m' h x hx
    simp [gcapGo] at h
    rw [← h.2]
    exact hx
  | cons entry rest ih =>
    obtain ⟨ns, obj⟩ := entry
    intro out missing out' m' h x hx
    by_cases hk : keepNamespace ns obj
    · rw [gcapGo, if_pos hk] at h
      cases hg : getProperties env0 enums ns obj missing with
      | error e' => rw [hg] at h; exact absurd h (by simp)
      | ok pm =>
        obtain ⟨props, m2⟩ := pm
        rw [hg] at h
        exact ih _ _ _ _ h x (getPropsGo_missing_mono obj.props [] missing props m2 hg x hx)
    · rw [gcapGo, if_neg hk] at h
      exact ih _ _ _ _ h x hx

theorem gcapGo_records (env0 : Env) (enums : Enums) :
    ∀ (l : List (String × Decl)) (out : Catalog) (missing : List String)
      (out' : Catalog) (m' : List String),
    gcapGo env0 enums l out missing = .ok (out', m') →
    ∀ ns obj pn p, (ns, obj) ∈ l → keepNamespace ns obj = true →
      (pn, p) ∈ obj.props → classifiable p = true → isEvent pn = true →
      lookupStr eventNameCapitalization pn = none → pn ∈ m' := by
  intro l
  induction l with
  | nil =>
    intro out missing out' m' h ns obj pn p hmem
    exact absurd hmem (List.not_mem_nil _)
  | cons entry rest ih =>
    obtain ⟨ns0, obj0⟩ := entry
    intro out missing out' m' h ns obj pn p hmem hkeep hprop hcls hev hnone
    rcases List.mem_cons.mp hmem with hhd | htl
    · injection hhd with h1 h2
      subst h1
      subst h2
      rw [gcapGo, if_pos hkeep] at h
      cases hg : getProperties env0 enums ns obj missing with
      | error e' => rw [hg] at h; exact absurd h (by simp)
      | ok pm =>
        obtain ⟨props, m2⟩ := pm
        rw [hg] at h
        have hin : pn ∈ m2 :=
          getPropsGo_records obj.props [] missing props m2 hg pn p hprop hcls hev hnone
        exact gcapGo_missing_mono env0 enums rest _ m2 out' m' h pn hin
    · by_cases hk : keepNamespace ns0 obj0
      · rw [gcapGo, if_pos hk] at h
        cases hg : getProperties env0 enums ns0 obj0 missing with
        | error e' => rw [hg] at h; exact absurd h (by simp)
        | ok pm =>
          obtain ⟨props, m2⟩ := pm
          rw [hg] at h
          exact ih _ _ _ _ h ns obj pn p htl hkeep hprop hcls hev hnone
      · rw [gcapGo, if_neg hk] at h
        exact ih _ _ _ _ h ns obj pn p htl hkeep hprop hcls hev hnone

theorem mem_sortStrings {x : String} {l : List String} (h : x ∈ l) :
    x ∈ sortStrings l :=
  (perm_sortByKey (fun s => s) l).mem_iff.mpr h

/-- C3: unknown event capitalizations do not abort the traversal: the run
returns the completed catalog exactly when the collected set of unknown
names is empty, and otherwise — after the whole traversal — fails with the
diagnostic listing the collected names in sorted order; whenever the run
fails with that diagnostic, the list is sorted and contains every
classifiable "on"-prefixed property name, across all kept controls, that
is absent from the capitalization table. -/
theorem claim_C3 :
    (∀ (env : Env) (enums : Enums) (out : Catalog) (m : List String),
      gcapGo env enums env [] [] = .ok (out, m) →
        ((m = [] → getControlsAndProperties env enums = .ok out)
          ∧ (m ≠ [] → getControlsAndProperties env enums
              = .error (.unknownEvents (sortStrings m)))))
    ∧ (∀ (env : Env) (enums : Enums) (L : List String),
        getControlsAndProperties env enums = .error (.unknownEvents L) →
        (L.Pairwise (fun a b => strLe a b = true)
          ∧ ∀ ns obj pn p, (ns, obj) ∈ env → keepNamespace ns obj = true →
              (pn, p) ∈ obj.props → classifiable p = true → isEvent pn = true →
              lookupStr eventNameCapitalization pn = none → pn ∈ L)) := by
  constructor
  · intro env enums out m h
    constructor
    · intro hm
      subst hm
      unfold getControlsAndProperties
      rw [h]
      rfl
    · intro hm
      unfold getControlsAndProperties
      rw [h]
      have hie : m.isEmpty = false := by
        cases m with
        | nil => exact absurd rfl hm
        | cons a t => rfl
      simp [hie]
  · intro env enums L h
    unfold getControlsAndProperties at h
    cases hg : gcapGo env enums env [] [] with
    | error e =>
      rw [hg] at h
      simp at h
      rcases gcapGo_error_shape env enums env [] [] e hg with ⟨p, hp⟩ | ⟨msg, hmsg⟩
      · rw [hp] at h
        exact absurd h (by simp)
      · rw [hmsg] at h
        exact absurd h (by simp)
    | ok pm =>
      obtain ⟨out, m⟩ := pm
      rw [hg] at h
      by_cases hm : m.isEmpty
      · simp [hm] at h
      · simp [hm] at h
        constructor
        · rw [← h]
          exact (pairwise_sortByKey (fun s : String => s) m).imp (fun hab => hab)
        · intro ns obj pn p hmem hkeep hprop hcls hev hnone
          rw [← h]
          exact mem_sortStrings
            (gcapGo_records env enums env [] [] out m hg ns obj pn p hmem hkeep
              hprop hcls hev hnone)


/-- The two-control scenario for witnessing batched event validation:
`WinJS.UI.A` has a function-shaped `onwhoosh`, `WinJS.UI.B` a
function-shaped `onbang`; neither is in the capitalization table. -/
def env3 : Env :=
  [("WinJS.UI.A", .mk "object" (some "class") none [("onwhoosh", funShapedD)] 0),
   ("WinJS.UI.B", .mk "object" (some "class") none [("onbang", funShapedD)] 0)]

/-- Witness for C3: on `env3` the traversal completes collecting both
misses across the two controls, the run fails with the sorted list
`["onbang", "onwhoosh"]`, and each missing name is in the diagnostic. -/
theorem claim_C3_witness :
    getControlsAndProperties env3 [] = .error (.unknownEvents ["onbang", "onwhoosh"])
    ∧ "onwhoosh" ∈ (["onbang", "onwhoosh"] : List String)
    ∧ "onbang" ∈ (["onbang", "onwhoosh"] : List String) := by
  have hg : gcapGo env3 [] env3 [] []
      = .ok ([("A", []), ("B", [])], ["onwhoosh", "onbang"]) := by rfl
  have hrun := (claim_C3.1 env3 [] [("A", []), ("B", [])] ["onwhoosh", "onbang"] hg).2
    (by simp)
  have hsort : sortStrings ["onwhoosh", "onbang"] = ["onbang", "onwhoosh"] := by rfl
  rw [hsort] at hrun
  refine ⟨hrun, ?_, ?_⟩
  · exact (claim_C3.2 env3 [] ["onbang", "onwhoosh"] hrun).2
      "WinJS.UI.A" (.mk "object" (some "class") none [("onwhoosh", funShapedD)] 0)
      "onwhoosh" funShapedD (by simp [env3]) (by decide) (by simp [Decl.props])
      (by decide) (by decide) (by rfl)
  · exact (claim_C3.2 env3 [] ["onbang", "onwhoosh"] hrun).2
      "WinJS.UI.B" (.mk "object" (some "class") none [("onbang", funShapedD)] 0)
      "onbang" funShapedD (by simp [env3]) (by decide) (by simp [Decl.props])
      (by decide) (by decide) (by rfl)


/-! ### Claim C4 — event classification -/

theorem isFunction_type {p : Decl} (h : isFunction p = true) : p.type = "object" := by
  unfold isFunction isInterface isKind isObject isType at h
  simp [Bool.and_eq_true] at h
  exact h.1.1

/-- A control with the single "on"-prefixed builtin property `online`
(not in the capitalization table). -/
def envOnline : Env :=
  [("WinJS.UI.Foo", .mk "object" (some "class") none [("online", numberD)] 0)]

/-- Counterexample to C4: in `src/main.js` the event check precedes the
shape dispatch, so the builtin-typed property `online` — whose name merely
starts with "on" — is routed through the event table, recorded as a
missing event, and the run fails; it is not included as an ordinary data
property under its original name as the claim states. -/
theorem claim_C4_counterexample :
    getControlsAndProperties envOnline [] = .error (.unknownEvents ["online"])
    ∧ getControlsAndProperties envOnline []
        ≠ .ok [("Foo", [("online", .passthrough numberD)])] := by
  have h : getControlsAndProperties envOnline []
      = .error (.unknownEvents ["online"]) := by rfl
  refine ⟨h, ?_⟩
  rw [h]
  simp

/-- C4 amended: any classifiable property whose name starts with "on" —
regardless of whether its type is function-shaped, builtin, reference or
enum — is classified through the event path: renamed to the table's
canonical name on a hit, recorded in the run's missing set on a miss.
Function-shaped properties not named with the "on" prefix are silently
omitted, and builtin/reference-typed properties not named with the "on"
prefix (and not of primitive string type) are included as data properties
under their original name. -/
theorem claim_C4_amended :
    (∀ (env : Env) (enums : Enums) (ns pn : String) (p : Decl) (m0 : List String),
      isFunction p = true → isEvent pn = false →
      getProperties env enums ns (.mk "object" (some "class") none [(pn, p)] 0) m0
        = .ok ([], m0))
    ∧ (∀ (env : Env) (enums : Enums) (ns pn : String) (p : Decl) (m0 : List String),
        (isBuiltin p || isReference p) = true → p.type ≠ "string" →
        isEvent pn = false →
        getProperties env enums ns (.mk "object" (some "class") none [(pn, p)] 0) m0
          = .ok ([(pn, .passthrough p)], m0))
    ∧ (∀ (env : Env) (enums : Enums) (ns pn : String) (p : Decl) (m0 : List String)
        (cap : String), classifiable p = true → isEvent pn = true →
        lookupStr eventNameCapitalization pn = some cap →
        getProperties env enums ns (.mk "object" (some "class") none [(pn, p)] 0) m0
          = .ok ([(cap, .eventMarker)], m0))
    ∧ (∀ (env : Env) (enums : Enums) (ns pn : String) (p : Decl) (m0 : List String),
        classifiable p = true → isEvent pn = true →
        lookupStr eventNameCapitalization pn = none →
        getProperties env enums ns (.mk "object" (some "class") none [(pn, p)] 0) m0
          = .ok ([], insertKey m0 pn)) := by
  refine ⟨?_, ?_, ?_, ?_⟩
  · intro env enums ns pn p m0 hf hev
    have htype : p.type = "object" := isFunction_type hf
    have hen : isEnum p = false := by simp [isEnum, isType, htype]
    have hstr : (p.type == "string") = false := by simp [htype]
    simp [getProperties, getPropsGo, Decl.props, hf, hev, hen, hstr]
  · intro env enums ns pn p m0 hbr hstr hev
    have hen : isEnum p = false := by
      rcases Bool.or_eq_true_iff.mp hbr with hb | hr
      · unfold isBuiltin at hb
        simp at hb
        unfold isEnum isType
        rcases hb with h | h | h | h | h <;> simp [h]
      · unfold isReference isType at hr
        simp at hr
        simp [isEnum, isType, hr]
    have hfn : isFunction p = false := by
      unfold isFunction isInterface isKind isObject isType
      rcases Bool.or_eq_true_iff.mp hbr with hb | hr
      · unfold isBuiltin at hb
        simp at hb
        rcases hb with h | h | h | h | h <;> simp [h]
      · unfold isReference isType at hr
        simp at hr
        simp [hr]
    have hstr' : (p.type == "string") = false := by simp [hstr]
    simp [getProperties, getPropsGo, Decl.props, objInsert, hbr, hev, hen, hstr', hfn]
  · intro env enums ns pn p m0 cap hcls hev hl
    have hcls' : (isBuiltin p || isReference p || isEnum p || isFunction p) = true := hcls
    simp [getProperties, getPropsGo, Decl.props, objInsert, hcls', hev, hl]
  · intro env enums ns pn p m0 hcls hev hl
    have hcls' : (isBuiltin p || isReference p || isEnum p || isFunction p) = true := hcls
    simp [getProperties, getPropsGo, Decl.props, hcls', hev, hl]

/-- Witness for the amended C4 at concrete inputs: a non-"on"
function-shaped `doThing` is dropped, a non-"on" builtin `count` is kept
as data, the "on"-prefixed function-shaped `onclick` becomes `onClick`,
and the "on"-prefixed builtin `online` is recorded as a missing event. -/
theorem claim_C4_witness :
    getProperties [] [] "WinJS.UI.X"
        (.mk "object" (some "class") none [("doThing", funShapedD)] 0) []
      = .ok ([], [])
    ∧ getProperties [] [] "WinJS.UI.X"
        (.mk "object" (some "class") none [("count", numberD)] 0) []
      = .ok ([("count", .passthrough numberD)], [])
    ∧ getProperties [] [] "WinJS.UI.X"
        (.mk "object" (some "class") none [("onclick", funShapedD)] 0) []
      = .ok ([("onClick", .eventMarker)], [])
    ∧ getProperties [] [] "WinJS.UI.X"
        (.mk "object" (some "class") none [("online", numberD)] 0) []
      = .ok ([], ["online"]) := by
  refine ⟨?_, ?_, ?_, ?_⟩
  · exact claim_C4_amended.1 [] [] "WinJS.UI.X" "doThing" funShapedD []
      (by decide) (by decide)
  · exact claim_C4_amended.2.1 [] [] "WinJS.UI.X" "count" numberD []
      (by decide) (by decide) (by decide)
  · exact claim_C4_amended.2.2.1 [] [] "WinJS.UI.X" "onclick" funShapedD [] "onClick"
      (by decide) (by decide) (by rfl)
  · exact claim_C4_amended.2.2.2 [] [] "WinJS.UI.X" "online" numberD []
      (by decide) (by decide) (by rfl)


/-! ### Claim C5 — direct enum resolution and its precedence -/

/-- C5: a non-event property whose declared type is tagged `enum` resolves
by looking up the enum's qualified name in the enum map and taking each
member's last dot segment in declaration order — for every `env`, so the
presence or absence of a same-named static string-enum convention target
cannot change the result; and for any classifiable property whose declared
type is not the primitive string, the result never depends on `env`, i.e.
the convention-based lookup is attempted only for string-typed
properties. -/
theorem claim_C5 :
    (∀ (env : Env) (enums : Enums) (ns pn qn : String) (vs : List String)
      (m0 : List String),
      isEvent pn = false → lookupStr enums qn = some vs →
      getProperties env enums ns
        (.mk "object" (some "class") none [(pn, .mk "enum" none (some qn) [] 0)] 0) m0
        = .ok ([(pn, .enumInfo (vs.map lastSeg))], m0))
    ∧ (∀ (env env2 : Env) (enums : Enums) (ns pn : String) (p : Decl)
        (m0 : List String),
        classifiable p = true → p.type ≠ "string" →
        getProperties env enums ns (.mk "object" (some "class") none [(pn, p)] 0) m0
          = getProperties env2 enums ns (.mk "object" (some "class") none [(pn, p)] 0) m0) := by
  constructor
  · intro env enums ns pn qn vs m0 hev hl
    simp [getProperties, getPropsGo, Decl.props, Decl.name, Decl.type, objInsert,
      isEnum, isType, isBuiltin, isReference, isFunction, isInterface, isKind,
      isObject, hev, getEnumTypeInfo, hl]
  · intro env env2 enums ns pn p m0 hcls hstr
    have hcls' : (isBuiltin p || isReference p || isEnum p || isFunction p) = true := hcls
    have hstr' : (p.type == "string") = false := by simp [hstr]
    by_cases hev : isEvent pn = true
    · cases hl : lookupStr eventNameCapitalization pn with
      | some cap => simp [getProperties, getPropsGo, Decl.props, hcls', hev, hl]
      | none => simp [getProperties, getPropsGo, Decl.props, hcls', hev, hl]
    · by_cases hen : isEnum p = true
      · cases hgi : getEnumTypeInfo enums p.name with
        | error e =>
          simp [getProperties, getPropsGo, Decl.props, hcls', hev, hen, hgi]
        | ok info =>
          simp [getProperties, getPropsGo, Decl.props, hcls', hev, hen, hgi]
      · simp [getProperties, getPropsGo, Decl.props, hcls', hev, hen, hstr']

/-- Witness for C5: the scenario's `mode` property resolves to the member
value set `["A", "B"]` under the empty graph and under `env7` alike, and
the builtin `count` property classifies identically under the empty graph
and `env7`. -/
theorem claim_C5_witness :
    getProperties [] enums7 "WinJS.UI.Foo"
        (.mk "object" (some "class") none [("mode", modeD)] 0) []
      = .ok ([("mode", .enumInfo ["A", "B"])], [])
    ∧ getProperties env7 [] "WinJS.UI.Foo"
        (.mk "object" (some "class") none [("count", numberD)] 0) []
      = getProperties [] [] "WinJS.UI.Foo"
        (.mk "object" (some "class") none [("count", numberD)] 0) [] := by
  constructor
  · exact claim_C5.1 [] enums7 "WinJS.UI.Foo" "mode" "WinJS.UI.Foo.Mode"
      ["WinJS.UI.Foo.Mode.A", "WinJS.UI.Foo.Mode.B"] [] (by decide) (by rfl)
  · exact claim_C5.2 env7 [] [] "WinJS.UI.Foo" "count" numberD []
      (by decide) (by decide)

/-! ### Claim C6 — convention-based string enums -/

/-- C6: for a string-typed property of a control `WinJS.UI.<Control>`, if
the `WinJS.UI` module has a static property named after the control whose
type in turn has a member named as the property with its first character
upper-cased, the member's own property names in declared order become the
value set; if the static class property or the derived member is absent,
the property is passed through unchanged as the plain string descriptor
and the run does not fail. -/
theorem claim_C6 :
    (∀ (env : Env) (enums : Enums) (ns pn : String) (m0 : List String)
      (mdl theClass enumDef : Decl),
      startsWithS ns "WinJS.UI." = true → (splitDot ns).length = 3 →
      isEvent pn = false → pn ≠ "" →
      lookupStr env "module:WinJS.UI" = some mdl →
      lookupStr mdl.props (lastSeg ns) = some theClass →
      lookupStr theClass.props (capFirst pn) = some enumDef →
      getProperties env enums ns (.mk "object" (some "class") none [(pn, stringD)] 0) m0
        = .ok ([(pn, .enumInfo (enumDef.props.map Prod.fst))], m0))
    ∧ (∀ (env : Env) (enums : Enums) (ns pn : String) (m0 : List String) (mdl : Decl),
        startsWithS ns "WinJS.UI." = true → (splitDot ns).length = 3 →
        isEvent pn = false →
        lookupStr env "module:WinJS.UI" = some mdl →
        lookupStr mdl.props (lastSeg ns) = none →
        getProperties env enums ns (.mk "object" (some "class") none [(pn, stringD)] 0) m0
          = .ok ([(pn, .passthrough stringD)], m0))
    ∧ (∀ (env : Env) (enums : Enums) (ns pn : String) (m0 : List String)
        (mdl theClass : Decl),
        startsWithS ns "WinJS.UI." = true → (splitDot ns).length = 3 →
        isEvent pn = false → pn ≠ "" →
        lookupStr env "module:WinJS.UI" = some mdl →
        lookupStr mdl.props (lastSeg ns) = some theClass →
        lookupStr theClass.props (capFirst pn) = none →
        getProperties env enums ns (.mk "object" (some "class") none [(pn, stringD)] 0) m0
          = .ok ([(pn, .passthrough stringD)], m0)) := by
  refine ⟨?_, ?_, ?_⟩
  · intro env enums ns pn m0 mdl theClass enumDef hS h3 hev hpn hm hcl he
    obtain ⟨c, cs, hd⟩ := List.exists_cons_of_ne_nil
      (fun hnil => hpn (string_eq_of_data_eq (hnil.trans rfl)))
    have hres : getStringBasedEnumTypeInfo env ns pn
        = .ok (some (.enumInfo (enumDef.props.map Prod.fst))) := by
      unfold getStringBasedEnumTypeInfo
      rw [show (splitDot ns).getLastD "" = lastSeg ns from rfl]
      rw [if_pos (by simp [hS, h3])]
      rw [hm]
      simp [hcl, hd, he]
    simp [getProperties, getPropsGo, Decl.props, objInsert, hev, hres, stringD,
      isBuiltin, isReference, isEnum, isFunction, isInterface, isKind, isObject,
      isType, Decl.type]
  · intro env enums ns pn m0 mdl hS h3 hev hm hcl
    have hres : getStringBasedEnumTypeInfo env ns pn = .ok none := by
      unfold getStringBasedEnumTypeInfo
      rw [show (splitDot ns).getLastD "" = lastSeg ns from rfl]
      rw [if_pos (by simp [hS, h3])]
      rw [hm]
      simp [hcl]
    simp [getProperties, getPropsGo, Decl.props, objInsert, hev, hres, stringD,
      isBuiltin, isReference, isEnum, isFunction, isInterface, isKind, isObject,
      isType, Decl.type]
  · intro env enums ns pn m0 mdl theClass hS h3 hev hpn hm hcl he
    obtain ⟨c, cs, hd⟩ := List.exists_cons_of_ne_nil
      (fun hnil => hpn (string_eq_of_data_eq (hnil.trans rfl)))
    have hres : getStringBasedEnumTypeInfo env ns pn = .ok none := by
      unfold getStringBasedEnumTypeInfo
      rw [show (splitDot ns).getLastD "" = lastSeg ns from rfl]
      rw [if_pos (by simp [hS, h3])]
      rw [hm]
      simp [hcl, hd, he]
    simp [getProperties, getPropsGo, Decl.props, objInsert, hev, hres, stringD,
      isBuiltin, isReference, isEnum, isFunction, isInterface, isKind, isObject,
      isType, Decl.type]

/-- The SplitView-style convention scenario: `WinJS.UI.SplitView` has a
string property `panePlacement` and the module's static `SplitView` class
carries a `PanePlacement` member whose properties are `left` and `right`. -/
def paneEnumD : Decl :=
  .mk "object" (some "object") none
    [("left", stringD), ("right", stringD)] 0

/-- The static `SplitView` helper class with the `PanePlacement` member. -/
def splitViewD : Decl :=
  .mk "object" (some "class") none
    [("panePlacement", stringD), ("PanePlacement", paneEnumD)] 0

/-- Declaration graph for the convention scenario. -/
def env6 : Env :=
  [("module:WinJS.UI", .mk "object" (some "module") none [("SplitView", splitViewD)] 0),
   ("WinJS.UI.SplitView", splitViewD)]

/-- Witness for C6: `panePlacement` resolves to `["left", "right"]` via the
static `SplitView.PanePlacement` member, while a control with no static
helper class falls back to the plain string passthrough. -/
theorem claim_C6_witness :
    getProperties env6 [] "WinJS.UI.SplitView"
        (.mk "object" (some "class") none [("panePlacement", stringD)] 0) []
      = .ok ([("panePlacement", .enumInfo ["left", "right"])], [])
    ∧ getProperties env6 [] "WinJS.UI.Other"
        (.mk "object" (some "class") none [("title", stringD)] 0) []
      = .ok ([("title", .passthrough stringD)], []) := by
  constructor
  · exact claim_C6.1 env6 [] "WinJS.UI.SplitView" "panePlacement" []
      (.mk "object" (some "module") none [("SplitView", splitViewD)] 0)
      splitViewD paneEnumD
      (by decide) (by decide) (by decide) (by decide) (by rfl) (by rfl) (by rfl)
  · exact claim_C6.2.1 env6 [] "WinJS.UI.Other" "title" []
      (.mk "object" (some "module") none [("SplitView", splitViewD)] 0)
      (by decide) (by decide) (by decide) (by rfl) (by rfl)

/-! ### Claim C10 — preconditions of the convention lookup -/

/-- C10: the convention-based string-enum lookup inspects the graph only
when the control's fully-qualified name starts with "WinJS.UI." and has
exactly three dot segments — otherwise it returns null for every graph and
the string property falls back to the plain passthrough — and whenever the
lookup is attempted, a graph without the `module:WinJS.UI` key makes it
crash (a TypeError on the unguarded dereference) instead of falling back. -/
theorem claim_C10 :
    (∀ (env : Env) (ns pn : String),
      ¬(startsWithS ns "WinJS.UI." = true ∧ (splitDot ns).length = 3) →
      getStringBasedEnumTypeInfo env ns pn = .ok none)
    ∧ (∀ (env : Env) (enums : Enums) (ns pn : String) (m0 : List String),
        ¬(startsWithS ns "WinJS.UI." = true ∧ (splitDot ns).length = 3) →
        isEvent pn = false →
        getProperties env enums ns
          (.mk "object" (some "class") none [(pn, stringD)] 0) m0
          = .ok ([(pn, .passthrough stringD)], m0))
    ∧ (∀ (env : Env) (ns pn : String),
        startsWithS ns "WinJS.UI." = true → (splitDot ns).length = 3 →
        lookupStr env "module:WinJS.UI" = none →
        ∃ msg, getStringBasedEnumTypeInfo env ns pn = .error (.typeError msg)) := by
  have hcond : ∀ (ns : String),
      ¬(startsWithS ns "WinJS.UI." = true ∧ (splitDot ns).length = 3) →
      (startsWithS ns "WinJS.UI." && (splitDot ns).length == 3) = false := by
    intro ns h
    by_cases h1 : startsWithS ns "WinJS.UI." = true
    · by_cases h2 : (splitDot ns).length = 3
      · exact absurd ⟨h1, h2⟩ h
      · simp [h1, h2]
    · cases hb : startsWithS ns "WinJS.UI." with
      | true => exact absurd hb h1
      | false => simp [hb]
  refine ⟨?_, ?_, ?_⟩
  · intro env ns pn h
    unfold getStringBasedEnumTypeInfo
    rw [if_neg (by simp [hcond ns h])]
  · intro env enums ns pn m0 h hev
    have hres : getStringBasedEnumTypeInfo env ns pn = .ok none := by
      unfold getStringBasedEnumTypeInfo
      rw [if_neg (by simp [hcond ns h])]
    simp [getProperties, getPropsGo, Decl.props, objInsert, hev, hres, stringD,
      isBuiltin, isReference, isEnum, isFunction, isInterface, isKind, isObject,
      isType, Decl.type]
  · intro env ns pn hS h3 hm
    refine ⟨"env[module:WinJS.UI].object is undefined", ?_⟩
    unfold getStringBasedEnumTypeInfo
    rw [if_pos (by simp [hS, h3])]
    rw [hm]

/-- Witness for C10: a four-segment namespace under the root falls back to
the plain string passthrough without consulting the graph, and a
three-segment namespace with no `module:WinJS.UI` entry crashes the
lookup. -/
theorem claim_C10_witness :
    getStringBasedEnumTypeInfo [] "WinJS.UI.Sub.Foo" "title" = .ok none
    ∧ getProperties [] [] "WinJS.UI.Sub.Foo"
        (.mk "object" (some "class") none [("title", stringD)] 0) []
      = .ok ([("title", .passthrough stringD)], [])
    ∧ (∃ msg, getStringBasedEnumTypeInfo [] "WinJS.UI.Foo" "title"
        = .error (.typeError msg)) := by
  refine ⟨?_, ?_, ?_⟩
  · exact claim_C10.1 [] "WinJS.UI.Sub.Foo" "title" (by decide)
  · exact claim_C10.2.1 [] [] "WinJS.UI.Sub.Foo" "title" [] (by decide) (by decide)
  · exact claim_C10.2.2 [] "WinJS.UI.Foo" "title" (by decide) (by decide) (by rfl)


/-! ### Claim C7 — the concrete scenario -/

/-- C7: on the scenario graph (`WinJS.UI.Foo` with `title: string`,
`onclick` function-shaped and in the table as `onClick`, `mode` an enum
with members `WinJS.UI.Foo.Mode.A/B`), the pipeline yields the catalog
entry `Foo` with `title` the plain string passthrough, `onClick` the event
marker, `mode` the value set `["A", "B"]`; the serializer's key sort
(`sortByKey Prod.fst`, the order `sortedPrintObject` prints) puts the keys
in the order `mode, onClick, title`. -/
theorem claim_C7 :
    getControlsAndProperties env7 enums7 = .ok catalog7
    ∧ catalog7 = [("Foo", props7)]
    ∧ props7 = [("title", .passthrough stringD), ("onClick", .eventMarker),
        ("mode", .enumInfo ["A", "B"])]
    ∧ (sortByKey Prod.fst props7).map Prod.fst = ["mode", "onClick", "title"] :=
  ⟨rfl, rfl, rfl, rfl⟩

/-! ### Claim C8 — "element"-suffixed properties (src/unnamed/part_000) -/

theorem lookupStr_mem {l : List (String × α)} {k : String} {v : α}
    (h : lookupStr l k = some v) : (k, v) ∈ l := by
  induction l with
  | nil => exact absurd h (by simp [lookupStr])
  | cons kv r ih =>
    obtain ⟨k', v'⟩ := kv
    unfold lookupStr at h
    by_cases hk : k' = k
    · rw [if_pos hk] at h
      injection h with h'
      subst hk
      subst h'
      exact List.mem_cons_self _ _
    · rw [if_neg hk] at h
      exact List.mem_cons_of_mem _ (ih h)

theorem v0_table_no_element :
    ∀ kv ∈ V0.eventNameCapitalization, endsWithS (toLowerS kv.2) "element" = false := by
  decide

theorem v0_getPropsGo_no_element :
    ∀ (l : List (String × Decl)) (props missing props' missing' : List String),
    (∀ n ∈ props, endsWithS (toLowerS n) "element" = false) →
    V0.getPropsGo l props missing = .ok (props', missing') →
    ∀ n ∈ props', endsWithS (toLowerS n) "element" = false := by
  intro l
  induction l with
  | nil =>
    intro props missing props' missing' hP h n hn
    simp [V0.getPropsGo] at h
    rw [← h.1] at hn
    exact hP n hn
  | cons entry rest ih =>
    obtain ⟨pn, p⟩ := entry
    intro props missing props' missing' hP h n hn
    simp only [V0.getPropsGo] at h
    by_cases hcls : (isBuiltin p || isReference p || isEnum p) = true
    · rw [if_pos hcls] at h
      by_cases hkp : V0.keepProperty pn = true
      · rw [if_pos hkp] at h
        refine ih _ _ _ _ ?_ h n hn
        intro x hx
        rcases List.mem_append.mp hx with hx | hx
        · exact hP x hx
        · have hx' : x = pn := by simpa using hx
          subst hx'
          unfold V0.keepProperty at hkp
          simpa using hkp
      · rw [if_neg hkp] at h
        exact ih _ _ _ _ hP h n hn
    · rw [if_neg hcls] at h
      by_cases hfn : isFunction p = true
      · rw [if_pos hfn] at h
        by_cases hev : isEvent pn = true
        · rw [if_pos hev] at h
          cases hl : lookupStr V0.eventNameCapitalization pn with
          | some cap =>
            rw [hl] at h
            refine ih _ _ _ _ ?_ h n hn
            intro x hx
            rcases List.mem_append.mp hx with hx | hx
            · exact hP x hx
            · have hx' : x = cap := by simpa using hx
              rw [hx']
              exact v0_table_no_element (pn, cap) (lookupStr_mem hl)
          | none =>
            rw [hl] at h
            exact ih _ _ _ _ hP h n hn
        · rw [if_neg hev] at h
          exact ih _ _ _ _ hP h n hn
      · rw [if_neg hfn] at h
        exact absurd h (by simp)

theorem mem_objInsert {l : List (String × α)} {k0 k : String} {v0 v : α}
    (h : (k0, v0) ∈ objInsert l k v) : (k0, v0) ∈ l ∨ v0 = v := by
  induction l with
  | nil =>
    simp [objInsert] at h
    exact Or.inr h.2
  | cons kv r ih =>
    obtain ⟨k', v'⟩ := kv
    unfold objInsert at h
    by_cases hk : k' = k
    · rw [if_pos hk] at h
      rcases List.mem_cons.mp h with hh | hh
      · injection hh with h1 h2
        exact Or.inr h2
      · exact Or.inl (List.mem_cons_of_mem _ hh)
    · rw [if_neg hk] at h
      rcases List.mem_cons.mp h with hh | hh
      · exact Or.inl (hh ▸ List.mem_cons_self _ _)
      · rcases ih hh with hh' | hh'
        · exact Or.inl (List.mem_cons_of_mem _ hh')
        · exact Or.inr hh'

theorem v0_gcapGo_no_element :
    ∀ (l : List (String × Decl)) (out : List (String × List String))
      (missing : List String) (out' : List (String × List String)) (m' : List String),
    (∀ e ∈ out, ∀ n ∈ e.2, endsWithS (toLowerS n) "element" = false) →
    V0.gcapGo l out missing = .ok (out', m') →
    ∀ e ∈ out', ∀ n ∈ e.2, endsWithS (toLowerS n) "element" = false := by
  intro l
  induction l with
  | nil =>
    intro out missing out' m' hP h e he
    simp [V0.gcapGo] at h
    rw [← h.1] at he
    exact hP e he
  | cons entry rest ih =>
    obtain ⟨ns, obj⟩ := entry
    intro out missing out' m' hP h e he
    by_cases hk : V0.keepNamespace ns obj
    · rw [V0.gcapGo, if_pos hk] at h
      cases hg : V0.getProperties obj missing with
      | error err => rw [hg] at h; exact absurd h (by simp)
      | ok pm =>
        obtain ⟨props, m2⟩ := pm
        rw [hg] at h
        refine ih _ _ _ _ ?_ h e he
        intro e' he' n hn
        obtain ⟨ek, ev⟩ := e'
        rcases mem_objInsert he' with hh | hh
        · exact hP (ek, ev) hh n hn
        · rw [hh] at hn
          exact v0_getPropsGo_no_element obj.props [] missing props m2
            (by intro x hx; exact absurd hx (List.not_mem_nil x)) hg n hn
    · rw [V0.gcapGo, if_neg hk] at h
      exact ih _ _ _ _ hP h e he

theorem v0_getControlsAndProperties_ok_elim {env : Env}
    {out : List (String × List String)}
    (h : V0.getControlsAndProperties env = .ok out) :
    V0.gcapGo env [] [] = .ok (out, []) := by
  unfold V0.getControlsAndProperties at h
  cases hg : V0.gcapGo env [] [] with
  | error e => rw [hg] at h; exact absurd h (by simp)
  | ok pm =>
    obtain ⟨out0, m⟩ := pm
    rw [hg] at h
    by_cases hm : m.isEmpty
    · simp [hm] at h
      rw [List.isEmpty_iff] at hm
      rw [hm, h]
    · simp [hm] at h

/-- A kept control of the main pipeline carrying the synthetic
reference-typed `element` property. -/
def env8 : Env :=
  [("WinJS.UI.Thing", .mk "object" (some "class") none [("element", refD)] 0)]

/-- Counterexample to C8 as stated: `src/main.js` — which the claim also
covers — has no `keepProperty` filter, so the reference-typed property
`element` (whose lowercase name ends in "element") is not excluded: it
lands in the catalog as an ordinary data property. -/
theorem claim_C8_counterexample :
    getControlsAndProperties env8 []
      = .ok [("Thing", [("element", .passthrough refD)])]
    ∧ endsWithS (toLowerS "element") "element" = true :=
  ⟨rfl, by decide⟩

/-- C8 amended: the "element"-suffix exclusion is implemented only by the
`src/unnamed/part_000` variant's `keepProperty`; there, no property whose
lowercased name ends in "element" ever appears in a successful run's
catalog — data properties are filtered by `keepProperty`, and every
renamed event comes from the capitalization table, none of whose canonical
names ends in "element". The `src/main.js` pipeline performs no such
exclusion (see the counterexample). -/
theorem claim_C8 :
    ∀ (env : Env) (out : List (String × List String)),
    V0.getControlsAndProperties env = .ok out →
    ∀ ctrl names, (ctrl, names) ∈ out → ∀ n ∈ names,
    endsWithS (toLowerS n) "element" = false := by
  intro env out h ctrl names hmem n hn
  exact v0_gcapGo_no_element env [] [] out []
    (by intro e he; exact absurd he (List.not_mem_nil e))
    (v0_getControlsAndProperties_ok_elim h) (ctrl, names) hmem n hn

/-- A control holding the synthetic `element` / `innerElement` properties
(reference-typed) next to an ordinary `title`. -/
def envV0 : Env :=
  [("WinJS.UI.Thing", .mk "object" (some "class") none
    [("element", refD), ("title", stringD), ("innerElement", refD)] 0)]

/-- Witness for C8: the part_000 run on `envV0` keeps only `title`;
applying the claim to its catalog shows the surviving name has no
"element" suffix. -/
theorem claim_C8_witness :
    V0.getControlsAndProperties envV0 = .ok [("Thing", ["title"])]
    ∧ endsWithS (toLowerS "title") "element" = false := by
  have h : V0.getControlsAndProperties envV0 = .ok [("Thing", ["title"])] := by rfl
  exact ⟨h, claim_C8 envV0 [("Thing", ["title"])] h "Thing" ["title"]
    (by simp) "title" (by simp)⟩


/-! ### Claim C1 — serializer sort invariants -/

theorem jsToString_jstr (s : String) : jsToString (JSVal.jstr s) = s := by
  simp [jsToString]

theorem insertByKey_map_jstr (a : String) (l : List String) :
    insertByKey jsToString (JSVal.jstr a) (l.map JSVal.jstr)
      = (insertByKey (fun s => s) a l).map JSVal.jstr := by
  induction l with
  | nil => rfl
  | cons b t ih =>
    simp only [List.map_cons, insertByKey, jsToString_jstr]
    by_cases h : strLe a b = true
    · rw [if_pos h, if_pos h]
      rfl
    · rw [if_neg h, if_neg h]
      rw [List.map_cons, ih]

theorem sortByKey_map_jstr (ss : List String) :
    sortByKey jsToString (ss.map JSVal.jstr)
      = (sortByKey (fun s => s) ss).map JSVal.jstr := by
  induction ss with
  | nil => rfl
  | cons a t ih =>
    simp only [List.map_cons, sortByKey, ih]
    exact insertByKey_map_jstr a (sortByKey (fun s => s) t)

/-- Keys of a key-sorted pair list with no duplicate keys are strictly
increasing. -/
theorem sortByKey_fst_strict (fields : List (String × JSVal))
    (hnd : (fields.map Prod.fst).Nodup) :
    (sortByKey Prod.fst fields).Pairwise (fun p q => strLt p.1 q.1 = true) := by
  have hperm : List.Perm (sortByKey Prod.fst fields) fields :=
    perm_sortByKey Prod.fst fields
  have hnd' : ((sortByKey Prod.fst fields).map Prod.fst).Nodup :=
    ((hperm.map Prod.fst).nodup_iff).mpr hnd
  have hne : (sortByKey Prod.fst fields).Pairwise (fun p q => ¬ p.1 = q.1) :=
    (List.pairwise_map.mp hnd')
  have hle : (sortByKey Prod.fst fields).Pairwise (keyLe Prod.fst) :=
    pairwise_sortByKey Prod.fst fields
  exact (hle.and hne).imp (fun h => strLt_of_le_of_ne h.1 h.2)

/-- C1 amended: for every rendered mapping with (JS-guaranteed) unique
keys, the printed key order is strictly lexicographic; sequence elements
are printed in nondecreasing order of their JS string conversion
(`ToString`), which for string elements is lexicographic in the element
itself — not in its quoted rendered text; consequently mappings equal as
unordered key-value collections, and string sequences equal as multisets,
render byte-identically. -/
theorem claim_C1_amended :
    (∀ (fields : List (String × JSVal)),
      (fields.map Prod.fst).Nodup →
      ((sortByKey Prod.fst fields).map Prod.fst).Pairwise (fun a b => strLt a b = true))
    ∧ (∀ (xs : List JSVal),
        (sortByKey jsToString xs).Pairwise
          (fun x y => strLe (jsToString x) (jsToString y) = true))
    ∧ (∀ (fs1 fs2 : List (String × JSVal)) (ic : Nat),
        List.Perm fs1 fs2 → (fs1.map Prod.fst).Nodup →
        sortedPrintObject fs1 ic = sortedPrintObject fs2 ic)
    ∧ (∀ (ss ts : List String) (ic : Nat),
        List.Perm ss ts →
        sortedPrintArray (ss.map JSVal.jstr) ic
          = sortedPrintArray (ts.map JSVal.jstr) ic) := by
  refine ⟨?_, ?_, ?_, ?_⟩
  · intro fields hnd
    exact List.pairwise_map.mpr (sortByKey_fst_strict fields hnd)
  · intro xs
    exact (pairwise_sortByKey jsToString xs).imp (fun h => h)
  · intro fs1 fs2 ic hperm hnd
    have hnd2 : (fs2.map Prod.fst).Nodup := ((hperm.map Prod.fst).nodup_iff).mp hnd
    have hsort : sortByKey Prod.fst fs1 = sortByKey Prod.fst fs2 := by
      refine eq_of_perm_of_pairwise_antisymm
        (R := fun p q : String × JSVal => strLt p.1 q.1 = true)
        (fun a b h1 h2 => absurd h2 (by simp [strLt_asymm h1])) _ _
        (((perm_sortByKey Prod.fst fs1).trans hperm).trans
          (perm_sortByKey Prod.fst fs2).symm)
        (sortByKey_fst_strict fs1 hnd) (sortByKey_fst_strict fs2 hnd2)
    have hlen : fs1.length = fs2.length := hperm.length_eq
    simp only [sortedPrintObject]
    rw [hsort, hlen]
  · intro ss ts ic hperm
    have hsort : sortByKey (fun s => s) ss = sortByKey (fun s => s) ts := by
      refine eq_of_perm_of_pairwise_antisymm
        (R := fun a b : String => strLe a b = true)
        (fun a b h1 h2 => strLe_antisymm h1 h2) _ _
        (((perm_sortByKey (fun s => s) ss).trans hperm).trans
          (perm_sortByKey (fun s => s) ts).symm)
        ((pairwise_sortByKey (fun s => s) ss).imp (fun h => h))
        ((pairwise_sortByKey (fun s => s) ts).imp (fun h => h))
    have hlen : ss.length = ts.length := hperm.length_eq
    simp only [sortedPrintArray, sortByKey_map_jstr]
    rw [hsort, List.length_map, List.length_map, hlen]

/-- Counterexample to C1 as stated: the code sorts array elements by their
plain `ToString` (JS default sort), not by their rendered text. On
`["x!", "x"]` the rendered text of `"x!"` (namely `"x!"` with quotes) is
strictly smaller than that of `"x"` (since `'!' < '"'`), yet the code
prints `"x"` first. -/
theorem claim_C1_counterexample :
    sortedPrint (JSVal.jarr [JSVal.jstr "x!", JSVal.jstr "x"]) 0
      = "[\n    \"x\",\n    \"x!\"\n]"
    ∧ strLt (sortedPrint (JSVal.jstr "x!") 1) (sortedPrint (JSVal.jstr "x") 1) = true := by
  constructor
  · simp [sortedPrint, sortedPrintArray, printedArrayItems, sortByKey, insertByKey,
      jsToString, strLe, charListLe, indent]
  · have h1 : sortedPrint (JSVal.jstr "x!") 1 = "\"x!\"" := by simp [sortedPrint]
    have h2 : sortedPrint (JSVal.jstr "x") 1 = "\"x\"" := by simp [sortedPrint]
    rw [h1, h2]
    decide

/-- Witness for the amended C1 at concrete inputs: strictly sorted keys on
a two-field object, sorted `ToString` order on a two-element array, and
permutation invariance for both an object and a string array. -/
theorem claim_C1_witness :
    ((sortByKey Prod.fst [("b", JSVal.jnum 1), ("a", JSVal.jnum 2)]).map
        Prod.fst).Pairwise (fun a b => strLt a b = true)
    ∧ (sortByKey jsToString [JSVal.jstr "b", JSVal.jstr "a"]).Pairwise
        (fun x y => strLe (jsToString x) (jsToString y) = true)
    ∧ sortedPrintObject [("b", JSVal.jnum 1), ("a", JSVal.jnum 2)] 0
        = sortedPrintObject [("a", JSVal.jnum 2), ("b", JSVal.jnum 1)] 0
    ∧ sortedPrintArray ([ "b", "a" ].map JSVal.jstr) 0
        = sortedPrintArray ([ "a", "b" ].map JSVal.jstr) 0 := by
  refine ⟨?_, ?_, ?_, ?_⟩
  · exact claim_C1_amended.1 [("b", JSVal.jnum 1), ("a", JSVal.jnum 2)] (by simp)
  · exact claim_C1_amended.2.1 [JSVal.jstr "b", JSVal.jstr "a"]
  · exact claim_C1_amended.2.2.1 [("b", JSVal.jnum 1), ("a", JSVal.jnum 2)]
      [("a", JSVal.jnum 2), ("b", JSVal.jnum 1)] 0 (List.Perm.swap _ _ _) (by simp)
  · exact claim_C1_amended.2.2.2 ["b", "a"] ["a", "b"] 0 (List.Perm.swap _ _ _)


/-! ### Claim C9 — the serializer is not pure: it sorts arrays in place -/

theorem JSVal.induction' (P : JSVal → Prop)
    (hb : ∀ b, P (JSVal.jbool b))
    (hn : ∀ n, P (JSVal.jnum n))
    (hs : ∀ s, P (JSVal.jstr s))
    (ha : ∀ xs, (∀ x ∈ xs, P x) → P (JSVal.jarr xs))
    (ho : ∀ fs, (∀ kv ∈ fs, P kv.2) → P (JSVal.jobj fs)) :
    ∀ v, P v
  | .jbool b => hb b
  | .jnum n => hn n
  | .jstr s => hs s
  | .jarr xs => ha xs (fun x hx =>
      JSVal.induction' P hb hn hs ha ho x)
  | .jobj fs => ho fs (fun kv hkv =>
      JSVal.induction' P hb hn hs ha ho kv.2)
termination_by v => sizeOf v
decreasing_by
  · simp_wf
    have := List.sizeOf_lt_of_mem hx
    try simp only [JSVal.jarr.sizeOf_spec]
    try simp only [JSVal.jarr.sizeOf_spec] at this
    omega
  · simp_wf
    have := List.sizeOf_lt_of_mem hkv
    obtain ⟨k, v⟩ := kv
    try simp only [JSVal.jobj.sizeOf_spec, Prod.mk.sizeOf_spec] at *
    omega

theorem printEffectList_eq_map (l : List JSVal) :
    printEffectList l = l.map printEffect := by
  induction l with
  | nil => simp [printEffectList]
  | cons x xs ih => simp [printEffectList, ih]

theorem printEffectFields_eq_map (fs : List (String × JSVal)) :
    printEffectFields fs = fs.map (fun kv => (kv.1, printEffect kv.2)) := by
  induction fs with
  | nil => simp [printEffectFields]
  | cons kv rest ih =>
    obtain ⟨k, v⟩ := kv
    simp [printEffectFields, ih]

theorem isArr_printEffect (v : JSVal) : (printEffect v).isArr = v.isArr := by
  cases v <;> simp [printEffect, JSVal.isArr]

theorem jsToString_printEffect {v : JSVal} (h : v.isArr = false) :
    jsToString (printEffect v) = jsToString v := by
  cases v with
  | jbool b => simp [printEffect]
  | jnum n => simp [printEffect]
  | jstr s => simp [printEffect]
  | jarr xs => exact absurd h (by simp [JSVal.isArr])
  | jobj fs => simp [printEffect, jsToString]

theorem flatSeqList_iff {l : List JSVal} :
    flatSeqList l = true ↔ ∀ x ∈ l, x.isArr = false ∧ flatSeq x = true := by
  induction l with
  | nil => simp [flatSeqList]
  | cons x xs ih =>
    simp [flatSeqList, ih, Bool.and_eq_true]
    try tauto

theorem flatSeqFields_iff {fs : List (String × JSVal)} :
    flatSeqFields fs = true ↔ ∀ kv ∈ fs, flatSeq kv.2 = true := by
  induction fs with
  | nil => simp [flatSeqFields]
  | cons kv rest ih =>
    obtain ⟨k, v⟩ := kv
    simp [flatSeqFields, ih, Bool.and_eq_true]

/-- Sorting a list that is already key-sorted and whose elements' keys are
unchanged by `printEffect` (no element is itself an array) leaves the
mutated list fixed. -/
theorem sortByKey_map_printEffect_of_sorted {l : List JSVal}
    (hflat : ∀ x ∈ l, x.isArr = false)
    (hsorted : l.Pairwise (keyLe jsToString)) :
    sortByKey jsToString (l.map printEffect) = l.map printEffect := by
  apply sortByKey_of_pairwise
  rw [List.pairwise_map]
  refine List.Pairwise.imp_of_mem ?_ hsorted
  intro a b ha hb hab
  unfold keyLe at hab ⊢
  rw [jsToString_printEffect (hflat a ha), jsToString_printEffect (hflat b hb)]
  exact hab

theorem printedArrayItems_map_congr {l : List JSVal} {ic : Nat}
    (h : ∀ x ∈ l, sortedPrint (printEffect x) ic = sortedPrint x ic) :
    printedArrayItems ic (l.map printEffect) = printedArrayItems ic l := by
  induction l with
  | nil => simp
  | cons x xs ih =>
    have hie : (xs.map printEffect).isEmpty = xs.isEmpty := by
      cases xs <;> rfl
    simp only [List.map_cons, printedArrayItems, hie]
    rw [h x (List.mem_cons_self x xs),
      ih (fun y hy => h y (List.mem_cons_of_mem x hy))]

theorem printedObjectItems_map_congr {l : List (String × JSVal)} {ic : Nat}
    (h : ∀ kv ∈ l, sortedPrint (printEffect kv.2) ic = sortedPrint kv.2 ic) :
    printedObjectItems ic (l.map (fun kv => (kv.1, printEffect kv.2)))
      = printedObjectItems ic l := by
  induction l with
  | nil => simp
  | cons kv rest ih =>
    obtain ⟨k, v⟩ := kv
    have hie : (rest.map (fun kv => (kv.1, printEffect kv.2))).isEmpty = rest.isEmpty := by
      cases rest <;> rfl
    simp only [List.map_cons, printedObjectItems, hie]
    rw [h (k, v) (List.mem_cons_self _ rest),
      ih (fun kv' hkv' => h kv' (List.mem_cons_of_mem _ hkv'))]

theorem insertByKey_fst_map_snd (g : JSVal → JSVal) (a : String × JSVal)
    (l : List (String × JSVal)) :
    insertByKey Prod.fst (a.1, g a.2) (l.map (fun kv => (kv.1, g kv.2)))
      = (insertByKey Prod.fst a l).map (fun kv => (kv.1, g kv.2)) := by
  induction l with
  | nil => rfl
  | cons b t ih =>
    simp only [List.map_cons, insertByKey]
    by_cases hle : strLe a.1 b.1 = true
    · rw [if_pos hle, if_pos hle]
      rfl
    · rw [if_neg hle, if_neg hle]
      rw [List.map_cons, ih]

theorem sortByKey_fst_map_snd (g : JSVal → JSVal) (fs : List (String × JSVal)) :
    sortByKey Prod.fst (fs.map (fun kv => (kv.1, g kv.2)))
      = (sortByKey Prod.fst fs).map (fun kv => (kv.1, g kv.2)) := by
  induction fs with
  | nil => rfl
  | cons a t ih =>
    simp only [List.map_cons, sortByKey, ih]
    exact insertByKey_fst_map_snd g a (sortByKey Prod.fst t)

/-- C9 amended: the rendered text is a pure function of the input value,
but the serializer mutates the value: every visited array is left sorted
(by its elements' `ToString`), so the value is in general not left
unchanged. When no array in the value directly contains another array —
true of every catalog the pipeline builds — the mutation is idempotent and
re-serializing the mutated value yields byte-identical text. -/
theorem claim_C9_amended :
    ∀ (v : JSVal), flatSeq v = true →
      (∀ ic, sortedPrint (printEffect v) ic = sortedPrint v ic)
      ∧ printEffect (printEffect v) = printEffect v := by
  intro v
  induction v using JSVal.induction' with
  | hb b => exact fun _ => ⟨fun ic => by simp [printEffect], by simp [printEffect]⟩
  | hn n => exact fun _ => ⟨fun ic => by simp [printEffect], by simp [printEffect]⟩
  | hs s => exact fun _ => ⟨fun ic => by simp [printEffect], by simp [printEffect]⟩
  | ha xs ihx =>
    intro hflat
    have hflat' : ∀ x ∈ xs, x.isArr = false ∧ flatSeq x = true :=
      flatSeqList_iff.mp (by simpa [flatSeq] using hflat)
    have hsub : ∀ x ∈ sortByKey jsToString xs, x ∈ xs := fun x hx => mem_sortByKey hx
    have hkeys : ∀ x ∈ sortByKey jsToString xs, x.isArr = false :=
      fun x hx => (hflat' x (hsub x hx)).1
    have hpair : (sortByKey jsToString xs).Pairwise (keyLe jsToString) :=
      pairwise_sortByKey jsToString xs
    have heff : printEffect (JSVal.jarr xs)
        = JSVal.jarr ((sortByKey jsToString xs).map printEffect) := by
      simp [printEffect, printEffectList_eq_map]
    constructor
    · intro ic
      rw [heff]
      simp only [sortedPrint, sortedPrintArray]
      rw [sortByKey_map_printEffect_of_sorted hkeys hpair]
      have hlen : ((sortByKey jsToString xs).map printEffect).length = xs.length := by
        rw [List.length_map, (perm_sortByKey jsToString xs).length_eq]
      rw [hlen]
      by_cases hx0 : xs.length > 0
      · rw [if_pos hx0, if_pos hx0]
        rw [printedArrayItems_map_congr (fun x hx =>
          (ihx x (hsub x hx) (hflat' x (hsub x hx)).2).1 (ic + 1))]
      · rw [if_neg hx0, if_neg hx0]
    · rw [heff]
      have heff2 : printEffect (JSVal.jarr ((sortByKey jsToString xs).map printEffect))
          = JSVal.jarr (((sortByKey jsToString xs).map printEffect).map printEffect) := by
        simp [printEffect, printEffectList_eq_map,
          sortByKey_map_printEffect_of_sorted hkeys hpair]
      rw [heff2]
      congr 1
      rw [List.map_map]
      refine List.map_congr_left ?_
      intro x hx
      exact (ihx x (hsub x hx) (hflat' x (hsub x hx)).2).2
  | ho fs ihf =>
    intro hflat
    have hflat' : ∀ kv ∈ fs, flatSeq kv.2 = true :=
      flatSeqFields_iff.mp (by simpa [flatSeq] using hflat)
    have heff : printEffect (JSVal.jobj fs)
        = JSVal.jobj (fs.map (fun kv => (kv.1, printEffect kv.2))) := by
      simp [printEffect, printEffectFields_eq_map]
    constructor
    · intro ic
      rw [heff]
      simp only [sortedPrint, sortedPrintObject]
      rw [sortByKey_fst_map_snd printEffect fs, List.length_map]
      by_cases h0 : fs.length > 0
      · rw [if_pos h0, if_pos h0]
        rw [printedObjectItems_map_congr (fun kv hkv =>
          (ihf kv (mem_sortByKey hkv) (hflat' kv (mem_sortByKey hkv))).1 (ic + 1))]
      · rw [if_neg h0, if_neg h0]
    · rw [heff]
      have heff2 : printEffect (JSVal.jobj (fs.map (fun kv => (kv.1, printEffect kv.2))))
          = JSVal.jobj ((fs.map (fun kv => (kv.1, printEffect kv.2))).map
              (fun kv => (kv.1, printEffect kv.2))) := by
        simp [printEffect, printEffectFields_eq_map]
      rw [heff2]
      congr 1
      rw [List.map_map]
      refine List.map_congr_left ?_
      intro kv hkv
      simp only [Function.comp]
      rw [(ihf kv hkv (hflat' kv hkv)).2]

/-- Counterexample to C9 as stated: serializing does not leave the value
unchanged — the in-place `array.sort()` reorders `["b", "a"]` into
`["a", "b"]`. -/
theorem claim_C9_counterexample :
    printEffect (JSVal.jarr [JSVal.jstr "b", JSVal.jstr "a"])
      ≠ JSVal.jarr [JSVal.jstr "b", JSVal.jstr "a"] := by
  have h : printEffect (JSVal.jarr [JSVal.jstr "b", JSVal.jstr "a"])
      = JSVal.jarr [JSVal.jstr "a", JSVal.jstr "b"] := by
    simp [printEffect, printEffectList, sortByKey, insertByKey, jsToString,
      strLe, charListLe]
  rw [h]
  intro hc
  injection hc with h1
  injection h1 with h2 h3
  injection h2 with h4
  exact absurd h4 (by decide)

/-- Witness for the amended C9: on the flat value
`{vals: ["b", "a"]}` the mutated value re-serializes to identical text and
a second serialization mutates nothing further. -/
theorem claim_C9_witness :
    sortedPrint (printEffect (JSVal.jobj
        [("vals", JSVal.jarr [JSVal.jstr "b", JSVal.jstr "a"])])) 0
      = sortedPrint (JSVal.jobj
        [("vals", JSVal.jarr [JSVal.jstr "b", JSVal.jstr "a"])]) 0
    ∧ printEffect (printEffect (JSVal.jobj
        [("vals", JSVal.jarr [JSVal.jstr "b", JSVal.jstr "a"])]))
      = printEffect (JSVal.jobj
        [("vals", JSVal.jarr [JSVal.jstr "b", JSVal.jstr "a"])]) := by
  have h := claim_C9_amended
    (JSVal.jobj [("vals", JSVal.jarr [JSVal.jstr "b", JSVal.jstr "a"])])
    (by simp [flatSeq, flatSeqFields, flatSeqList, JSVal.isArr])
  exact ⟨h.1 0, h.2⟩


end WinJS
